import Mathlib

/-!
A verification development for the decision-tree induction and inference core
of this repository (impurity metrics, the two split strategies, the recursive
tree builder and the classifier).  The implementation headers themselves are
not present in the reviewed sources (only `decision_tree_test.cpp` and the CLI
driver are), so every component below is modelled from the specification and
cross-checked against the expectations of `decision_tree_test.cpp`.

Real-valued quantities of the C++ code (`double`) are modelled by exact
rationals `ℚ`; the information gain, which involves a base-2 logarithm, is
valued in `ℝ`.  Labels are natural numbers, datasets are lists of points.
-/

namespace MlpackDT

/-- Modelled from the spec, section 4.1: the sum of the weights of the points
carrying label `c`, for a label vector paired positionally with a weight
vector (`p_c` numerators of the weighted impurity metrics). -/
def sumW (labels : List ℕ) (weights : List ℚ) (c : ℕ) : ℚ :=
  (((labels.zip weights).filter (fun p => p.1 = c)).map (fun p => p.2)).sum

/-- Modelled from the spec, section 4.1: the total weight of a label vector
paired positionally with a weight vector. -/
def totW (labels : List ℕ) (weights : List ℚ) : ℚ :=
  ((labels.zip weights).map (fun p => p.2)).sum

namespace GiniGain

/-- Modelled from the spec, section 4.1 (the missing `gini_gain.hpp`):
`GiniGain::Evaluate<UseWeights>`.  Computes `p_c` as the (weighted) share of
class `c` and returns `-(1 - Σ p_c²)`; returns `0` for an empty label vector
or a zero total weight.  The `UseWeights` template argument is the first
(boolean) parameter. -/
def Evaluate (useWeights : Bool) (labels : List ℕ) (numClasses : ℕ)
    (weights : List ℚ) : ℚ :=
  if labels = [] then 0
  else if useWeights then
    let W := totW labels weights
    if W = 0 then 0
    else -(1 - ∑ c ∈ Finset.range numClasses, (sumW labels weights c / W) ^ 2)
  else
    -(1 - ∑ c ∈ Finset.range numClasses,
        ((labels.count c : ℚ) / (labels.length : ℚ)) ^ 2)

end GiniGain

/-- The summand `p · log2 p` of the information gain, with `0 · log2 0 = 0`. -/
noncomputable def plog2 (q : ℚ) : ℝ :=
  if q = 0 then 0 else (q : ℝ) * Real.logb 2 (q : ℝ)

namespace InformationGain

/-- Modelled from the spec, section 4.1 (the missing `information_gain.hpp`):
`InformationGain::Evaluate<UseWeights>`.  Computes the same `p_c` as the Gini
variant and returns `Σ p_c · log2(p_c)` treating `0·log2(0) = 0`; returns `0`
for an empty label vector or a zero total weight. -/
noncomputable def Evaluate (useWeights : Bool) (labels : List ℕ)
    (numClasses : ℕ) (weights : List ℚ) : ℝ :=
  if labels = [] then 0
  else if useWeights then
    let W := totW labels weights
    if W = 0 then 0
    else ∑ c ∈ Finset.range numClasses, plog2 (sumW labels weights c / W)
  else
    ∑ c ∈ Finset.range numClasses,
      plog2 ((labels.count c : ℚ) / (labels.length : ℚ))

end InformationGain

/-- A point of one feature column during split search: its value in the
considered dimension, its label, and its weight. -/
abbrev Row : Type := ℚ × ℕ × ℚ

/-- The labels of a run of rows. -/
def rowLabels (rows : List Row) : List ℕ := rows.map (fun r => r.2.1)

/-- The weights of a run of rows. -/
def rowWeights (rows : List Row) : List ℚ := rows.map (fun r => r.2.2)

/-- The total weight of a run of rows. -/
def rowWeightSum (rows : List Row) : ℚ := (rows.map (fun r => r.2.2)).sum

/-- The row ordering used by the numeric split search: compare feature
values (ties keep the original, stable order). -/
def rowLE (a b : Row) : Prop := a.1 ≤ b.1

instance : DecidableRel rowLE := fun a b => inferInstanceAs (Decidable (a.1 ≤ b.1))

instance : IsTotal Row rowLE := ⟨fun a b => le_total a.1 b.1⟩

instance : IsTrans Row rowLE := ⟨fun _ _ _ => le_trans⟩

/-- Assemble the aligned (value, label, weight) rows of one feature column.
When `UseWeights` is false the C++ code never reads the weight vector, which
is modelled by substituting unit weights. -/
def rowsOf (useWeights : Bool) (values : List ℚ) (labels : List ℕ)
    (weights : List ℚ) : List Row :=
  values.zip (labels.zip
    (if useWeights then weights else List.replicate values.length 1))

/-- The weight-proportional average impurity of a two-set partition
(spec, section 4.2): each side's Gini impurity weighted by its share of the
total weight (of the total point count in the unweighted case). -/
def combinedGini (useWeights : Bool) (numClasses : ℕ) (L R : List Row) : ℚ :=
  if useWeights then
    let WL := rowWeightSum L
    let WR := rowWeightSum R
    (WL * GiniGain.Evaluate true (rowLabels L) numClasses (rowWeights L) +
     WR * GiniGain.Evaluate true (rowLabels R) numClasses (rowWeights R)) /
      (WL + WR)
  else
    ((L.length : ℚ) * GiniGain.Evaluate false (rowLabels L) numClasses (rowWeights L) +
     (R.length : ℚ) * GiniGain.Evaluate false (rowLabels R) numClasses (rowWeights R)) /
      ((L.length : ℚ) + (R.length : ℚ))

/-- A default row (never observed: all accesses are bounds-guarded). -/
def dRow : Row := (0, 0, 0)

namespace BestBinaryNumericSplit

/-- The sweep of the sorted order producing the candidate cuts between
`prev` (the last point of the left side `left ++ [prev]`) and `cur` (the
first point of the right side).  A cut is a candidate when the value
strictly increases across it and both sides hold at least `minLeafSize`
points; the candidate carries its combined (weight-proportional) child
impurity and its threshold, the midpoint of the two adjacent values. -/
def candAux (useWeights : Bool) (numClasses minLeafSize : ℕ)
    (left : List Row) (prev : Row) : List Row → List (ℚ × ℚ)
  | [] => []
  | cur :: rest =>
    (if minLeafSize ≤ left.length + 1 ∧ minLeafSize ≤ rest.length + 1 ∧
        prev.1 < cur.1 then
      [(combinedGini useWeights numClasses (left ++ [prev]) (cur :: rest),
        (prev.1 + cur.1) / 2)]
    else []) ++ candAux useWeights numClasses minLeafSize (left ++ [prev]) cur rest

/-- Modelled from the spec, section 4.2 (the missing
`best_binary_numeric_split.hpp`): all candidate cut positions of a sorted
feature column, in sorted (ascending threshold) order. -/
def candidates (useWeights : Bool) (numClasses minLeafSize : ℕ) :
    List Row → List (ℚ × ℚ)
  | [] => []
  | r :: rest => candAux useWeights numClasses minLeafSize [] r rest

/-- Select the best candidate: the maximum gain, ties broken by the first
candidate found (which is the lowest threshold, since candidates are
enumerated in sorted order). -/
def pickBest : List (ℚ × ℚ) → Option (ℚ × ℚ)
  | [] => none
  | c :: rest =>
    match pickBest rest with
    | none => some c
    | some b => if b.1 ≤ c.1 then some c else some b

/-- The sorted rows of one feature column (stable sort by value). -/
def sortedRows (useWeights : Bool) (values : List ℚ) (labels : List ℕ)
    (weights : List ℚ) : List Row :=
  (rowsOf useWeights values labels weights).insertionSort rowLE

/-- Modelled from the spec, section 4.2 (the missing
`best_binary_numeric_split.hpp`): `BestBinaryNumericSplit::SplitIfBetter`.
Returns the achieved gain together with the output `classProbabilities`
vector, which receives the winning threshold on a successful split and is
left empty otherwise.  No split happens when `N < 2·minLeafSize`, when no
candidate cut exists, or when the best candidate does not strictly beat
`bestGain`. -/
def SplitIfBetter (useWeights : Bool) (bestGain : ℚ) (values : List ℚ)
    (labels : List ℕ) (numClasses : ℕ) (weights : List ℚ)
    (minLeafSize : ℕ) : ℚ × List ℚ :=
  if values.length < 2 * minLeafSize then (bestGain, [])
  else
    match pickBest (candidates useWeights numClasses minLeafSize
        (sortedRows useWeights values labels weights)) with
    | none => (bestGain, [])
    | some (g, t) => if bestGain < g then (g, [t]) else (bestGain, [])

end BestBinaryNumericSplit

namespace AllCategoricalSplit

/-- The rows of one categorical feature column (category, label, weight). -/
abbrev CRow : Type := ℕ × ℕ × ℚ

/-- Assemble the aligned (category, label, weight) rows of one categorical
column; unit weights substitute for the unread weight vector in the
unweighted instantiation. -/
def crowsOf (useWeights : Bool) (values : List ℕ) (labels : List ℕ)
    (weights : List ℚ) : List CRow :=
  values.zip (labels.zip
    (if useWeights then weights else List.replicate values.length 1))

/-- The child of category `k`: all rows whose value equals `k`. -/
def child (rows : List CRow) (k : ℕ) : List CRow :=
  rows.filter (fun r => r.1 = k)

/-- The labels of a run of categorical rows. -/
def cLabels (rows : List CRow) : List ℕ := rows.map (fun r => r.2.1)

/-- The weights of a run of categorical rows. -/
def cWeights (rows : List CRow) : List ℚ := rows.map (fun r => r.2.2)

/-- The weight-proportional average impurity of the full K-way partition
(spec, section 4.3). -/
def combinedGiniCat (useWeights : Bool) (numCategories numClasses : ℕ)
    (rows : List CRow) : ℚ :=
  if useWeights then
    (∑ k ∈ Finset.range numCategories,
      (cWeights (child rows k)).sum *
        GiniGain.Evaluate true (cLabels (child rows k)) numClasses
          (cWeights (child rows k))) / (cWeights rows).sum
  else
    (∑ k ∈ Finset.range numCategories,
      ((child rows k).length : ℚ) *
        GiniGain.Evaluate false (cLabels (child rows k)) numClasses
          (cWeights (child rows k))) / (rows.length : ℚ)

/-- Modelled from the spec, section 4.3 (the missing
`all_categorical_split.hpp`): `AllCategoricalSplit::SplitIfBetter`.  Splits
into `numCategories` children, one per category value; rejects the split
(returning `bestGain` with an empty output) when `numCategories < 2`, when
some child would receive fewer than `minLeafSize` points, or when the
combined child impurity does not strictly beat `bestGain`.  On success the
output vector records `numCategories` so the builder knows how many children
to allocate. -/
def SplitIfBetter (useWeights : Bool) (bestGain : ℚ) (values : List ℕ)
    (numCategories : ℕ) (labels : List ℕ) (numClasses : ℕ)
    (weights : List ℚ) (minLeafSize : ℕ) : ℚ × List ℚ :=
  let rows := crowsOf useWeights values labels weights
  if numCategories < 2 then (bestGain, [])
  else if (List.range numCategories).any
      (fun k => (child rows k).length < minLeafSize) then (bestGain, [])
  else
    let g := combinedGiniCat useWeights numCategories numClasses rows
    if bestGain < g then (g, [(numCategories : ℚ)]) else (bestGain, [])

end AllCategoricalSplit

/-- Modelled from the spec, section 3 (the missing `decision_tree.hpp`):
a tree node is either a leaf owning a class-probability vector, or an
internal node owning a split descriptor (numeric: dimension and threshold;
categorical: dimension and category count) and its children; every node
additionally stores its own class distribution so that traversal can fall
back to it for out-of-range categorical values. -/
inductive DTree : Type where
  | leaf (probs : List ℚ) : DTree
  | numNode (probs : List ℚ) (dim : ℕ) (threshold : ℚ) (l r : DTree) : DTree
  | catNode (probs : List ℚ) (dim : ℕ) (numCategories : ℕ)
      (children : List DTree) : DTree

/-- Modelled from the spec, section 4.5 (the missing `decision_tree.hpp`):
`DecisionTree::Classify`, the probability-vector part.  Walk the tree: at a
numeric node go left when `value ≤ threshold`, else right; at a categorical
node go to the child indexed by the integer category value when it lies in
`[0, numCategories)`, else answer with the node's own stored distribution;
at a leaf answer with the stored vector. -/
def DTree.classProbs : DTree → List ℚ → List ℚ
  | .leaf p, _ => p
  | .numNode _ dim th l r, x =>
    if x.getD dim 0 ≤ th then l.classProbs x else r.classProbs x
  | .catNode p dim numCats children, x =>
    if 0 ≤ ⌊x.getD dim 0⌋ ∧ ⌊x.getD dim 0⌋ < (numCats : ℤ) then
      match hm : children[(⌊x.getD dim 0⌋).toNat]? with
      | some c => c.classProbs x
      | none => p
    else p
  termination_by t => sizeOf t
  decreasing_by
    all_goals simp_wf
    all_goals try omega
    have := List.sizeOf_lt_of_mem (List.getElem?_mem hm)
    omega

/-- The first index attaining the maximum of a running scan (the predicted
label is the argmax of the class-probability vector, ties broken by the
lowest class index, as `arma::index_max` does). -/
def argmaxAux (best : ℚ) (bestIdx i : ℕ) : List ℚ → ℕ
  | [] => bestIdx
  | p :: rest =>
    if best < p then argmaxAux p i (i + 1) rest
    else argmaxAux best bestIdx (i + 1) rest

/-- Modelled from the spec, section 4.5: the predicted label is the argmax
of the class-probability vector, ties broken by the lowest class index. -/
def predictLabel : List ℚ → ℕ
  | [] => 0
  | p :: rest => argmaxAux p 0 1 rest

/-- The one-hot probability vector of length `n` at class `c`. -/
def oneHot (n c : ℕ) : List ℚ :=
  (List.range n).map (fun j => if j = c then 1 else 0)

/-- Modelled from the spec, section 4.4 step 3: the class-probability
vector of a leaf is the weighted class distribution of its partition,
normalized to sum to 1, with a uniform fallback when the total weight is
zero. -/
def leafProbs (useWeights : Bool) (numClasses : ℕ) (labels : List ℕ)
    (weights : List ℚ) : List ℚ :=
  let tot : ℚ := if useWeights then totW labels weights else (labels.length : ℚ)
  if tot = 0 then List.replicate numClasses (1 / (numClasses : ℚ))
  else (List.range numClasses).map (fun c =>
    (if useWeights then sumW labels weights c else (labels.count c : ℚ)) / tot)

/-- A training point during the build: its coordinate vector, its label and
its weight. -/
abbrev BRow : Type := List ℚ × ℕ × ℚ

/-- The labels of a build partition. -/
def bLabels (rows : List BRow) : List ℕ := rows.map (fun r => r.2.1)

/-- The weights of a build partition. -/
def bWeights (rows : List BRow) : List ℚ := rows.map (fun r => r.2.2)

/-- The feature column of dimension `d` of a build partition. -/
def colVals (d : ℕ) (rows : List BRow) : List ℚ :=
  rows.map (fun r => r.1.getD d 0)

/-- The candidate split of one (numeric) dimension of a build partition,
invoked with `currentBestGain` initialized to the node's baseline impurity
(spec, section 4.4 step 2). -/
def trialSplit (useWeights : Bool) (numClasses minLeafSize : ℕ)
    (rows : List BRow) (baseline : ℚ) (d : ℕ) : ℚ × List ℚ :=
  BestBinaryNumericSplit.SplitIfBetter useWeights baseline (colVals d rows)
    (bLabels rows) numClasses (bWeights rows) minLeafSize

/-- The scan over a list of dimensions keeping the one achieving the
maximum gain, ties broken by the earliest dimension in the list; a
dimension enters the competition only when its gain strictly exceeds the
baseline. -/
def selectAux (useWeights : Bool) (numClasses minLeafSize : ℕ)
    (rows : List BRow) (baseline : ℚ) : List ℕ → Option (ℕ × ℚ × List ℚ)
  | [] => none
  | d :: ds =>
    let t := trialSplit useWeights numClasses minLeafSize rows baseline d
    match selectAux useWeights numClasses minLeafSize rows baseline ds with
    | none => if baseline < t.1 then some (d, t.1, t.2) else none
    | some b => if b.2.1 ≤ t.1 then some (d, t.1, t.2) else some b

/-- Modelled from the spec, section 4.4 step 2: the dimension achieving the
overall maximum gain across all dimensions, ties broken by the first
dimension index encountered (ascending); `none` when no dimension strictly
improves on the baseline. -/
def selectDim (useWeights : Bool) (numClasses minLeafSize : ℕ)
    (rows : List BRow) (baseline : ℚ) (numDims : ℕ) :
    Option (ℕ × ℚ × List ℚ) :=
  selectAux useWeights numClasses minLeafSize rows baseline
    (List.range numDims)

/-- Modelled from the spec, section 4.4 (the missing `decision_tree.hpp`):
the recursive build, written with an explicit fuel so that the recursion is
structural; `buildTree` supplies fuel equal to the partition size, which
the termination argument of section 4.4 step 5 shows to be sufficient (the
partition strictly shrinks in every recursive call).  A node becomes a leaf
when `count < 2·minLeafSize` or when no dimension strictly improves on the
baseline impurity; otherwise the winning numeric split partitions the rows
into the `value ≤ threshold` side and its complement, and the build recurses
on both.  The size guard on the recursive call makes the strict-decrease
invariant of section 4.4 step 5 explicit; a successful split always places
points strictly below and strictly above its threshold, so the guard's
else-branch is unreachable (as the proof of claim C7 establishes along its
split path). -/
def buildFuel (useWeights : Bool) (numDims numClasses minLeafSize : ℕ) :
    ℕ → List BRow → DTree
  | 0, rows => .leaf (leafProbs useWeights numClasses (bLabels rows) (bWeights rows))
  | fuel + 1, rows =>
    let probs := leafProbs useWeights numClasses (bLabels rows) (bWeights rows)
    if rows.length < 2 * minLeafSize then .leaf probs
    else
      let baseline := GiniGain.Evaluate useWeights (bLabels rows) numClasses
        (bWeights rows)
      match selectDim useWeights numClasses minLeafSize rows baseline numDims with
      | none => .leaf probs
      | some (d, _, out) =>
        match out with
        | [t] =>
          let L := rows.filter (fun r => r.1.getD d 0 ≤ t)
          let R := rows.filter (fun r => t < r.1.getD d 0)
          if L.length < rows.length ∧ R.length < rows.length then
            .numNode probs d t
              (buildFuel useWeights numDims numClasses minLeafSize fuel L)
              (buildFuel useWeights numDims numClasses minLeafSize fuel R)
          else .leaf probs
        | _ => .leaf probs

/-- Modelled from the spec, section 4.4: build a tree over numeric
dimensions (the `DecisionTree` constructor of the tests). -/
def buildTree (useWeights : Bool) (numDims numClasses minLeafSize : ℕ)
    (rows : List BRow) : DTree :=
  buildFuel useWeights numDims numClasses minLeafSize rows.length rows

/-- The depth of a tree (leaves have depth 0). -/
def treeDepth : DTree → ℕ
  | .leaf _ => 0
  | .numNode _ _ _ l r => 1 + max (treeDepth l) (treeDepth r)
  | .catNode _ _ _ children =>
    1 + (children.attach.map (fun c => treeDepth c.1)).foldr max 0
  termination_by t => sizeOf t
  decreasing_by
    all_goals simp_wf
    all_goals try omega
    have := List.sizeOf_lt_of_mem c.2
    omega

/-! ### Theorems -/

/-- C6: evaluating either metric, weighted or unweighted, on an empty label
vector returns exactly 0, for every `numClasses ≥ 1` (and in fact for every
weight vector, matching `GiniGainEmptyTest` / `InformationGainEmptyTest`
which pass a 10-element weight vector alongside the empty labels). -/
theorem claim6_empty_eval_zero (useWeights : Bool) (numClasses : ℕ)
    (weights : List ℚ) (h : 1 ≤ numClasses) :
    GiniGain.Evaluate useWeights [] numClasses weights = 0 ∧
    InformationGain.Evaluate useWeights [] numClasses weights = 0 := by
  constructor <;> simp [GiniGain.Evaluate, InformationGain.Evaluate]

/-- Witness for C6 at `numClasses = 1` with the test's weight vector. -/
theorem claim6_empty_eval_zero_witness :
    (1 ≤ 1) ∧
    (GiniGain.Evaluate false [] 1 (List.replicate 10 1) = 0 ∧
      InformationGain.Evaluate false [] 1 (List.replicate 10 1) = 0) :=
  ⟨le_refl 1, claim6_empty_eval_zero false 1 (List.replicate 10 1) (le_refl 1)⟩

/-- C9: classification at a node with a categorical split descriptor whose
query category value is outside `[0, numCategories)` does not recurse: it
answers with the node's own stored class distribution. -/
theorem claim9_out_of_range_category_fallback (probs : List ℚ)
    (dim numCategories : ℕ) (children : List DTree) (x : List ℚ)
    (h : ¬ (0 ≤ ⌊x.getD dim 0⌋ ∧ ⌊x.getD dim 0⌋ < (numCategories : ℤ))) :
    DTree.classProbs (DTree.catNode probs dim numCategories children) x =
      probs := by
  rw [DTree.classProbs]
  exact if_neg h

/-- Witness for C9: a query with category value −3 at a 2-category node. -/
theorem claim9_out_of_range_category_fallback_witness :
    ¬ (0 ≤ ⌊([(-3 : ℚ)].getD 0 0)⌋ ∧
        ⌊([(-3 : ℚ)].getD 0 0)⌋ < ((2 : ℕ) : ℤ)) ∧
    DTree.classProbs
      (DTree.catNode [1, 0] 0 2 [DTree.leaf [0, 1], DTree.leaf [0, 1]])
      [(-3 : ℚ)] = [1, 0] := by
  have h : ¬ (0 ≤ ⌊([(-3 : ℚ)].getD 0 0)⌋ ∧
      ⌊([(-3 : ℚ)].getD 0 0)⌋ < ((2 : ℕ) : ℤ)) := by
    norm_num [List.getD]
  exact ⟨h, claim9_out_of_range_category_fallback [1, 0] 0 2
    [DTree.leaf [0, 1], DTree.leaf [0, 1]] [(-3 : ℚ)] h⟩

/-- C2: on the perfectly separable single-threshold input of
`BestBinaryNumericSplitSimpleSplitTest` (values `0.0, 0.1, …, 1.0`, labels
`0,0,0,0,0,1,1,1,1,1,1`, unit weights, `minLeafSize = 3`, 2 classes) the
numeric split strictly improves on the Gini baseline, reaches gain exactly
0, and records the single threshold `0.45`, strictly between the 5th and
6th sorted values `0.4` and `0.5`. -/
theorem claim2_numeric_simple_split :
    GiniGain.Evaluate false [0, 0, 0, 0, 0, 1, 1, 1, 1, 1, 1] 2
        (List.replicate 11 1) <
      (BestBinaryNumericSplit.SplitIfBetter false
        (GiniGain.Evaluate false [0, 0, 0, 0, 0, 1, 1, 1, 1, 1, 1] 2
          (List.replicate 11 1))
        [0, 1/10, 2/10, 3/10, 4/10, 5/10, 6/10, 7/10, 8/10, 9/10, 1]
        [0, 0, 0, 0, 0, 1, 1, 1, 1, 1, 1] 2 (List.replicate 11 1) 3).1 ∧
    BestBinaryNumericSplit.SplitIfBetter false
        (GiniGain.Evaluate false [0, 0, 0, 0, 0, 1, 1, 1, 1, 1, 1] 2
          (List.replicate 11 1))
        [0, 1/10, 2/10, 3/10, 4/10, 5/10, 6/10, 7/10, 8/10, 9/10, 1]
        [0, 0, 0, 0, 0, 1, 1, 1, 1, 1, 1] 2 (List.replicate 11 1) 3 =
      (0, [9/20]) ∧
    (2/5 : ℚ) < 9/20 ∧ (9/20 : ℚ) < 1/2 := by
  have h : BestBinaryNumericSplit.SplitIfBetter false
      (GiniGain.Evaluate false [0, 0, 0, 0, 0, 1, 1, 1, 1, 1, 1] 2
        (List.replicate 11 1))
      [0, 1/10, 2/10, 3/10, 4/10, 5/10, 6/10, 7/10, 8/10, 9/10, 1]
      [0, 0, 0, 0, 0, 1, 1, 1, 1, 1, 1] 2 (List.replicate 11 1) 3 =
      (0, [9/20]) := by
    norm_num [BestBinaryNumericSplit.SplitIfBetter,
      BestBinaryNumericSplit.sortedRows, BestBinaryNumericSplit.candidates,
      BestBinaryNumericSplit.candAux, BestBinaryNumericSplit.pickBest, rowsOf,
      List.insertionSort, List.orderedInsert, rowLE, List.zip, List.zipWith,
      List.replicate, combinedGini, rowLabels, rowWeights, GiniGain.Evaluate,
      Finset.sum_range_succ, List.count_cons, List.count_nil, List.cons_ne_nil]
  have hbase : GiniGain.Evaluate false [0, 0, 0, 0, 0, 1, 1, 1, 1, 1, 1] 2
      (List.replicate 11 1) = -60/121 := by
    norm_num [GiniGain.Evaluate, Finset.sum_range_succ, List.count_cons,
      List.count_nil, List.cons_ne_nil]
  refine ⟨?_, h, by norm_num, by norm_num⟩
  rw [h, hbase]
  norm_num

/-- C3: on the 4-category, 3-class perfectly separable input of
`AllCategoricalSplitSimpleSplitTest` (values `0,0,0,1,1,1,2,2,2,3,3,3`,
labels `0,0,0,2,2,2,1,1,1,2,2,2`, unit weights) the categorical split with
`minLeafSize = 3` strictly improves on the Gini baseline, reaches gain
exactly 0 and records exactly 4 (the number of children); with
`minLeafSize = 4`, which exceeds the smallest category count 3, it returns
the baseline unchanged (`AllCategoricalSplitMinSamplesTest`). -/
theorem claim3_categorical_simple_split :
    GiniGain.Evaluate false [0, 0, 0, 2, 2, 2, 1, 1, 1, 2, 2, 2] 3
        (List.replicate 12 1) <
      (AllCategoricalSplit.SplitIfBetter false
        (GiniGain.Evaluate false [0, 0, 0, 2, 2, 2, 1, 1, 1, 2, 2, 2] 3
          (List.replicate 12 1))
        [0, 0, 0, 1, 1, 1, 2, 2, 2, 3, 3, 3] 4
        [0, 0, 0, 2, 2, 2, 1, 1, 1, 2, 2, 2] 3 (List.replicate 12 1) 3).1 ∧
    AllCategoricalSplit.SplitIfBetter false
        (GiniGain.Evaluate false [0, 0, 0, 2, 2, 2, 1, 1, 1, 2, 2, 2] 3
          (List.replicate 12 1))
        [0, 0, 0, 1, 1, 1, 2, 2, 2, 3, 3, 3] 4
        [0, 0, 0, 2, 2, 2, 1, 1, 1, 2, 2, 2] 3 (List.replicate 12 1) 3 =
      (0, [4]) ∧
    AllCategoricalSplit.SplitIfBetter false
        (GiniGain.Evaluate false [0, 0, 0, 2, 2, 2, 1, 1, 1, 2, 2, 2] 3
          (List.replicate 12 1))
        [0, 0, 0, 1, 1, 1, 2, 2, 2, 3, 3, 3] 4
        [0, 0, 0, 2, 2, 2, 1, 1, 1, 2, 2, 2] 3 (List.replicate 12 1) 4 =
      (GiniGain.Evaluate false [0, 0, 0, 2, 2, 2, 1, 1, 1, 2, 2, 2] 3
        (List.replicate 12 1), []) := by
  have hbase : GiniGain.Evaluate false [0, 0, 0, 2, 2, 2, 1, 1, 1, 2, 2, 2] 3
      (List.replicate 12 1) = -5/8 := by
    norm_num [GiniGain.Evaluate, Finset.sum_range_succ, List.count_cons,
      List.count_nil, List.cons_ne_nil]
  have hr : List.range 4 = [0, 1, 2, 3] := rfl
  have h : AllCategoricalSplit.SplitIfBetter false
      (GiniGain.Evaluate false [0, 0, 0, 2, 2, 2, 1, 1, 1, 2, 2, 2] 3
        (List.replicate 12 1))
      [0, 0, 0, 1, 1, 1, 2, 2, 2, 3, 3, 3] 4
      [0, 0, 0, 2, 2, 2, 1, 1, 1, 2, 2, 2] 3 (List.replicate 12 1) 3 =
      (0, [4]) := by
    norm_num [AllCategoricalSplit.SplitIfBetter, AllCategoricalSplit.crowsOf,
      AllCategoricalSplit.child, AllCategoricalSplit.cLabels,
      AllCategoricalSplit.cWeights, AllCategoricalSplit.combinedGiniCat,
      hr, hbase, List.zip, List.zipWith, List.replicate, List.filter,
      GiniGain.Evaluate, Finset.sum_range_succ, List.count_cons,
      List.count_nil, List.cons_ne_nil]
  have h4 : AllCategoricalSplit.SplitIfBetter false
      (GiniGain.Evaluate false [0, 0, 0, 2, 2, 2, 1, 1, 1, 2, 2, 2] 3
        (List.replicate 12 1))
      [0, 0, 0, 1, 1, 1, 2, 2, 2, 3, 3, 3] 4
      [0, 0, 0, 2, 2, 2, 1, 1, 1, 2, 2, 2] 3 (List.replicate 12 1) 4 =
      (GiniGain.Evaluate false [0, 0, 0, 2, 2, 2, 1, 1, 1, 2, 2, 2] 3
        (List.replicate 12 1), []) := by
    norm_num [AllCategoricalSplit.SplitIfBetter, AllCategoricalSplit.crowsOf,
      AllCategoricalSplit.child, hr, List.zip, List.zipWith, List.replicate,
      List.filter]
  refine ⟨?_, h, h4⟩
  rw [h, hbase]
  norm_num

/-! ### Candidate-selection lemmas -/

theorem pickBest_mem {l : List (ℚ × ℚ)} {b : ℚ × ℚ}
    (h : BestBinaryNumericSplit.pickBest l = some b) : b ∈ l := by
  induction l with
  | nil => simp [BestBinaryNumericSplit.pickBest] at h
  | cons c rest ih =>
    rw [BestBinaryNumericSplit.pickBest] at h
    split at h
    · simp at h
      simp [h]
    · rename_i b0 hr
      split at h
      · simp at h
        simp [h]
      · simp at h
        exact List.mem_cons_of_mem _ (ih (h ▸ hr))

theorem pickBest_isSome (c : ℚ × ℚ) (rest : List (ℚ × ℚ)) :
    ∃ b, BestBinaryNumericSplit.pickBest (c :: rest) = some b := by
  rw [BestBinaryNumericSplit.pickBest]
  rcases hr : BestBinaryNumericSplit.pickBest rest with _ | b0
  · exact ⟨c, rfl⟩
  · by_cases hle : b0.1 ≤ c.1
    · exact ⟨c, by simp [hle]⟩
    · exact ⟨b0, by simp [hle]⟩

theorem pickBest_eq_none {l : List (ℚ × ℚ)}
    (h : BestBinaryNumericSplit.pickBest l = none) : l = [] := by
  cases l with
  | nil => rfl
  | cons c rest =>
    obtain ⟨b, hb⟩ := pickBest_isSome c rest
    rw [hb] at h
    exact absurd h (by simp)

theorem pickBest_ge {l : List (ℚ × ℚ)} :
    ∀ {b : ℚ × ℚ}, BestBinaryNumericSplit.pickBest l = some b →
    ∀ x ∈ l, x.1 ≤ b.1 := by
  induction l with
  | nil => intro b h _ hx; exact absurd hx (List.not_mem_nil _)
  | cons c rest ih =>
    intro b h
    rw [BestBinaryNumericSplit.pickBest] at h
    split at h
    · rename_i hr
      have hrest := pickBest_eq_none hr
      subst hrest
      simp at h
      intro x hx
      rcases List.mem_cons.1 hx with h1 | h1
      · subst h1; rw [← h]
      · exact absurd h1 (List.not_mem_nil x)
    · rename_i b0 hr
      intro x hx
      rcases List.mem_cons.1 hx with h1 | h1
      · subst h1
        split at h
        · simp at h
          rw [← h]
        · rename_i hle
          simp at h
          rw [← h]
          exact le_of_not_le hle
      · have hx0 := ih hr x h1
        split at h
        · rename_i hle
          simp at h
          rw [← h]
          exact le_trans hx0 hle
        · simp at h
          rw [← h]
          exact hx0

/-- Every candidate cut of the sweep lies between two points of the sorted
run whose values strictly increase; its threshold is their midpoint. -/
theorem candAux_sound {useW : Bool} {nc ml : ℕ} :
    ∀ (rest : List Row) (left : List Row) (prev : Row) {g t : ℚ},
    (g, t) ∈ BestBinaryNumericSplit.candAux useW nc ml left prev rest →
    ∃ p c, p ∈ prev :: rest ∧ c ∈ rest ∧ p.1 < c.1 ∧ t = (p.1 + c.1) / 2 := by
  intro rest
  induction rest with
  | nil => intro left prev g t h; simp [BestBinaryNumericSplit.candAux] at h
  | cons cur rest' ih =>
    intro left prev g t h
    rw [BestBinaryNumericSplit.candAux] at h
    rcases List.mem_append.1 h with h1 | h1
    · by_cases hc : ml ≤ left.length + 1 ∧ ml ≤ rest'.length + 1 ∧
          prev.1 < cur.1
      · rw [if_pos hc] at h1
        simp at h1
        exact ⟨prev, cur, List.mem_cons_self _ _,
          List.mem_cons_self _ _, hc.2.2, h1.2⟩
      · rw [if_neg hc] at h1
        simp at h1
    · obtain ⟨p, c, hp, hcm, hlt, ht⟩ := ih (left ++ [prev]) cur h1
      exact ⟨p, c, List.mem_cons.2 (Or.inr hp),
        List.mem_cons_of_mem _ hcm, hlt, ht⟩

theorem candidates_sound {useW : Bool} {nc ml : ℕ} {sorted : List Row}
    {g t : ℚ}
    (h : (g, t) ∈ BestBinaryNumericSplit.candidates useW nc ml sorted) :
    ∃ p c, p ∈ sorted ∧ c ∈ sorted ∧ p.1 < c.1 ∧ t = (p.1 + c.1) / 2 := by
  cases sorted with
  | nil => simp [BestBinaryNumericSplit.candidates] at h
  | cons r rest =>
    rw [BestBinaryNumericSplit.candidates] at h
    obtain ⟨p, c, hp, hcm, hlt, ht⟩ := candAux_sound rest [] r h
    exact ⟨p, c, hp, List.mem_cons_of_mem _ hcm, hlt, ht⟩

/-- The first component of a row of `rowsOf` is a feature value. -/
theorem rowsOf_fst_mem {useW : Bool} {v : List ℚ} {l : List ℕ} {w : List ℚ}
    {p : Row} (h : p ∈ rowsOf useW v l w) : p.1 ∈ v := by
  obtain ⟨pv, pr⟩ := p
  exact (List.of_mem_zip h).1

/-- A row of the sorted run is a row of the raw run. -/
theorem sortedRows_mem {useW : Bool} {v : List ℚ} {l : List ℕ} {w : List ℚ}
    {p : Row} (h : p ∈ BestBinaryNumericSplit.sortedRows useW v l w) :
    p ∈ rowsOf useW v l w :=
  (List.perm_insertionSort rowLE (rowsOf useW v l w)).mem_iff.1 h

/-- The numeric split either rejects (returning `bestGain` with an empty
output) or accepts a candidate cut: its gain is strictly above `bestGain`
and its threshold is written as the single output element. -/
theorem numericSplit_cases (useW : Bool) (bg : ℚ) (v : List ℚ) (l : List ℕ)
    (nc : ℕ) (w : List ℚ) (ml : ℕ) :
    BestBinaryNumericSplit.SplitIfBetter useW bg v l nc w ml = (bg, []) ∨
    ∃ g t, BestBinaryNumericSplit.SplitIfBetter useW bg v l nc w ml =
        (g, [t]) ∧ bg < g ∧
      (g, t) ∈ BestBinaryNumericSplit.candidates useW nc ml
        (BestBinaryNumericSplit.sortedRows useW v l w) := by
  rw [BestBinaryNumericSplit.SplitIfBetter]
  split
  · exact Or.inl rfl
  · split
    · exact Or.inl rfl
    · rename_i g t hpick
      split
      · rename_i hgt
        exact Or.inr ⟨g, t, rfl, hgt, pickBest_mem hpick⟩
      · exact Or.inl rfl

/-- The categorical split either rejects (returning `bestGain` with an
empty output) or accepts: its gain is the combined child impurity, strictly
above `bestGain`, and the category count is written as the single output
element. -/
theorem catSplit_cases (useW : Bool) (bg : ℚ) (v : List ℕ) (nCat : ℕ)
    (l : List ℕ) (nc : ℕ) (w : List ℚ) (ml : ℕ) :
    AllCategoricalSplit.SplitIfBetter useW bg v nCat l nc w ml = (bg, []) ∨
    ∃ g, AllCategoricalSplit.SplitIfBetter useW bg v nCat l nc w ml =
        (g, [(nCat : ℚ)]) ∧ bg < g := by
  rw [AllCategoricalSplit.SplitIfBetter]
  split
  · exact Or.inl rfl
  · split
    · exact Or.inl rfl
    · by_cases hgt : bg < AllCategoricalSplit.combinedGiniCat useW nCat nc
          (AllCategoricalSplit.crowsOf useW v l w)
      · exact Or.inr ⟨_, by simp only [if_pos hgt], hgt⟩
      · exact Or.inl (by simp only [if_neg hgt])

/-- On a successful numeric split (gain strictly above the input
`bestGain`) the output holds exactly one threshold, and the feature column
holds a value strictly below it and a value strictly above it. -/
theorem SplitIfBetter_success_shape {useW : Bool} {bg : ℚ} {v : List ℚ}
    {l : List ℕ} {nc : ℕ} {w : List ℚ} {ml : ℕ}
    (h : bg < (BestBinaryNumericSplit.SplitIfBetter useW bg v l nc w ml).1) :
    ∃ th, BestBinaryNumericSplit.SplitIfBetter useW bg v l nc w ml =
        ((BestBinaryNumericSplit.SplitIfBetter useW bg v l nc w ml).1, [th]) ∧
      (∃ a ∈ v, a < th) ∧ (∃ b ∈ v, th < b) := by
  rcases numericSplit_cases useW bg v l nc w ml with hr | ⟨g, t, hr, hgt, hmem⟩
  · rw [hr] at h
    exact absurd h (lt_irrefl bg)
  · obtain ⟨p, c, hp, hc, hlt, ht⟩ := candidates_sound hmem
    have hpv := rowsOf_fst_mem (sortedRows_mem hp)
    have hcv := rowsOf_fst_mem (sortedRows_mem hc)
    refine ⟨t, by rw [hr], ⟨p.1, hpv, ?_⟩, ⟨c.1, hcv, ?_⟩⟩ <;>
      (subst ht; linarith)

/-- C10: whenever either split strategy returns `currentBestGain`
unchanged (no split was performed), the output `classProbabilities`
vector is left empty: split-descriptor output is written only on a
successful split. -/
theorem claim10_no_split_leaves_output_empty :
    (∀ (useW : Bool) (bg : ℚ) (v : List ℚ) (l : List ℕ) (nc : ℕ)
        (w : List ℚ) (ml : ℕ),
      (BestBinaryNumericSplit.SplitIfBetter useW bg v l nc w ml).1 = bg →
      (BestBinaryNumericSplit.SplitIfBetter useW bg v l nc w ml).2 = []) ∧
    (∀ (useW : Bool) (bg : ℚ) (v : List ℕ) (nCat : ℕ) (l : List ℕ)
        (nc : ℕ) (w : List ℚ) (ml : ℕ),
      (AllCategoricalSplit.SplitIfBetter useW bg v nCat l nc w ml).1 = bg →
      (AllCategoricalSplit.SplitIfBetter useW bg v nCat l nc w ml).2 = []) := by
  constructor
  · intro useW bg v l nc w ml h
    rcases numericSplit_cases useW bg v l nc w ml with hr | ⟨g, t, hr, hgt, _⟩
    · rw [hr]
    · rw [hr] at h
      simp at h
      exact absurd (h ▸ hgt) (lt_irrefl bg)
  · intro useW bg v nCat l nc w ml h
    rcases catSplit_cases useW bg v nCat l nc w ml with hr | ⟨g, hr, hgt⟩
    · rw [hr]
    · rw [hr] at h
      simp at h
      exact absurd (h ▸ hgt) (lt_irrefl bg)

/-- C4: the numeric split returns `currentBestGain` unchanged and performs
no split whenever (a) fewer than `2·minLeafSize` points are given, (b) all
feature values are identical, or (c) no candidate cut achieves a gain
strictly greater than `currentBestGain` — in particular a cut that merely
ties the current best never triggers a split. -/
theorem claim4_numeric_no_split_conditions :
    (∀ (useW : Bool) (bg : ℚ) (v : List ℚ) (l : List ℕ) (nc : ℕ)
        (w : List ℚ) (ml : ℕ), v.length < 2 * ml →
      BestBinaryNumericSplit.SplitIfBetter useW bg v l nc w ml = (bg, [])) ∧
    (∀ (useW : Bool) (bg : ℚ) (v : List ℚ) (l : List ℕ) (nc : ℕ)
        (w : List ℚ) (ml : ℕ), (∀ a ∈ v, ∀ b ∈ v, a = b) →
      BestBinaryNumericSplit.SplitIfBetter useW bg v l nc w ml = (bg, [])) ∧
    (∀ (useW : Bool) (bg : ℚ) (v : List ℚ) (l : List ℕ) (nc : ℕ)
        (w : List ℚ) (ml : ℕ),
      (∀ x ∈ BestBinaryNumericSplit.candidates useW nc ml
          (BestBinaryNumericSplit.sortedRows useW v l w), x.1 ≤ bg) →
      BestBinaryNumericSplit.SplitIfBetter useW bg v l nc w ml = (bg, [])) := by
  refine ⟨?_, ?_, ?_⟩
  · intro useW bg v l nc w ml h
    rw [BestBinaryNumericSplit.SplitIfBetter, if_pos h]
  · intro useW bg v l nc w ml h
    rcases numericSplit_cases useW bg v l nc w ml with hr | ⟨g, t, _, _, hmem⟩
    · exact hr
    · obtain ⟨p, c, hp, hc, hlt, _⟩ := candidates_sound hmem
      have hpv := rowsOf_fst_mem (sortedRows_mem hp)
      have hcv := rowsOf_fst_mem (sortedRows_mem hc)
      exact absurd (h p.1 hpv c.1 hcv) (ne_of_lt hlt)
  · intro useW bg v l nc w ml h
    rcases numericSplit_cases useW bg v l nc w ml with hr | ⟨g, t, _, hgt, hmem⟩
    · exact hr
    · exact absurd (h (g, t) hmem) (not_le_of_lt hgt)

/-- Witness for C4: condition (a) with 11 points and `minLeafSize = 8`
(the `BestBinaryNumericSplitMinSamplesTest` shape), condition (b) with a
constant column, condition (c) with the candidate list of a 4-point column
whose one candidate only ties `bestGain = 0`. -/
theorem claim4_numeric_no_split_conditions_witness :
    ((2 : ℕ) < 2 * 8 ∧
      BestBinaryNumericSplit.SplitIfBetter false 0 [0, 1] [0, 1] 2
        (List.replicate 2 1) 8 = (0, [])) ∧
    ((∀ a ∈ [(1 : ℚ), 1, 1, 1], ∀ b ∈ [(1 : ℚ), 1, 1, 1], a = b) ∧
      BestBinaryNumericSplit.SplitIfBetter false 0 [1, 1, 1, 1] [0, 1, 0, 1] 2
        (List.replicate 4 1) 1 = (0, [])) ∧
    ((∀ x ∈ BestBinaryNumericSplit.candidates false 2 1
        (BestBinaryNumericSplit.sortedRows false [1, 1, 2, 2] [0, 1, 0, 1]
          (List.replicate 4 1)), x.1 ≤ -1/2) ∧
      BestBinaryNumericSplit.SplitIfBetter false (-1/2) [1, 1, 2, 2]
        [0, 1, 0, 1] 2 (List.replicate 4 1) 1 = (-1/2, [])) := by
  have ha : (2 : ℕ) < 2 * 8 := by norm_num
  have hb : ∀ a ∈ [(1 : ℚ), 1, 1, 1], ∀ b ∈ [(1 : ℚ), 1, 1, 1], a = b := by
    intro a ha b hb
    simp at ha hb
    rw [ha, hb]
  have hc : ∀ x ∈ BestBinaryNumericSplit.candidates false 2 1
      (BestBinaryNumericSplit.sortedRows false [1, 1, 2, 2] [0, 1, 0, 1]
        (List.replicate 4 1)), x.1 ≤ -1/2 := by
    intro x hx
    have he : BestBinaryNumericSplit.candidates false 2 1
        (BestBinaryNumericSplit.sortedRows false [1, 1, 2, 2] [0, 1, 0, 1]
          (List.replicate 4 1)) = [(-1/2, 3/2)] := by
      norm_num [BestBinaryNumericSplit.sortedRows,
        BestBinaryNumericSplit.candidates, BestBinaryNumericSplit.candAux,
        rowsOf, List.insertionSort, List.orderedInsert, rowLE, List.zip,
        List.zipWith, List.replicate, combinedGini, rowLabels, rowWeights,
        GiniGain.Evaluate, Finset.sum_range_succ, List.count_cons,
        List.count_nil, List.cons_ne_nil]
    rw [he] at hx
    simp at hx
    rw [hx]
  exact ⟨⟨ha, claim4_numeric_no_split_conditions.1 false 0 [0, 1] [0, 1] 2
      (List.replicate 2 1) 8 ha⟩,
    ⟨hb, claim4_numeric_no_split_conditions.2.1 false 0 [1, 1, 1, 1]
      [0, 1, 0, 1] 2 (List.replicate 4 1) 1 hb⟩,
    ⟨hc, claim4_numeric_no_split_conditions.2.2 false (-1/2) [1, 1, 2, 2]
      [0, 1, 0, 1] 2 (List.replicate 4 1) 1 hc⟩⟩

/-- Witness for C10 at the inputs of `BestBinaryNumericSplitMinSamplesTest`
and `AllCategoricalSplitMinSamplesTest` (both reject their split). -/
theorem claim10_no_split_leaves_output_empty_witness :
    ((BestBinaryNumericSplit.SplitIfBetter false 0 [0, 1] [0, 1] 2
        (List.replicate 2 1) 8).1 = 0 ∧
      (BestBinaryNumericSplit.SplitIfBetter false 0 [0, 1] [0, 1] 2
        (List.replicate 2 1) 8).2 = []) ∧
    ((AllCategoricalSplit.SplitIfBetter false 0 [0, 1] 2 [0, 1] 2
        (List.replicate 2 1) 4).1 = 0 ∧
      (AllCategoricalSplit.SplitIfBetter false 0 [0, 1] 2 [0, 1] 2
        (List.replicate 2 1) 4).2 = []) := by
  have h1 : (BestBinaryNumericSplit.SplitIfBetter false 0 [0, 1] [0, 1] 2
      (List.replicate 2 1) 8).1 = 0 := by
    norm_num [BestBinaryNumericSplit.SplitIfBetter]
  have h2 : (AllCategoricalSplit.SplitIfBetter false 0 [0, 1] 2 [0, 1] 2
      (List.replicate 2 1) 4).1 = 0 := by
    have hr : List.range 2 = [0, 1] := rfl
    norm_num [AllCategoricalSplit.SplitIfBetter, AllCategoricalSplit.crowsOf,
      AllCategoricalSplit.child, hr, List.zip, List.zipWith, List.replicate,
      List.filter]
  exact ⟨⟨h1, claim10_no_split_leaves_output_empty.1 false 0 [0, 1] [0, 1] 2
      (List.replicate 2 1) 8 h1⟩,
    ⟨h2, claim10_no_split_leaves_output_empty.2 false 0 [0, 1] 2 [0, 1] 2
      (List.replicate 2 1) 4 h2⟩⟩

/-! ### Unit-weight degeneration lemmas (claim C1) -/

theorem sumW_cons (a : ℕ) (l : List ℕ) (b : ℚ) (w : List ℚ) (c : ℕ) :
    sumW (a :: l) (b :: w) c = (if a = c then b else 0) + sumW l w c := by
  by_cases hac : a = c <;> simp [sumW, List.filter_cons, hac]

theorem totW_cons (a : ℕ) (l : List ℕ) (b : ℚ) (w : List ℚ) :
    totW (a :: l) (b :: w) = b + totW l w := by
  simp [totW]

theorem sumW_ones : ∀ (l : List ℕ) (w : List ℚ), w.length = l.length →
    (∀ x ∈ w, x = 1) → ∀ c, sumW l w c = l.count c := by
  intro l
  induction l with
  | nil => intro w _ _ c; simp [sumW]
  | cons a l ih =>
    intro w hlen hones c
    cases w with
    | nil => simp at hlen
    | cons b w' =>
      have hb : b = 1 := hones b (List.mem_cons_self _ _)
      have hrest : ∀ x ∈ w', x = 1 := fun x hx =>
        hones x (List.mem_cons_of_mem _ hx)
      have hlen' : w'.length = l.length := by simpa using hlen
      rw [sumW_cons, ih w' hlen' hrest c, hb, List.count_cons]
      by_cases hac : a = c <;> simp [hac] <;> ring

theorem totW_ones : ∀ (l : List ℕ) (w : List ℚ), w.length = l.length →
    (∀ x ∈ w, x = 1) → totW l w = l.length := by
  intro l
  induction l with
  | nil => intro w _ _; simp [totW]
  | cons a l ih =>
    intro w hlen hones
    cases w with
    | nil => simp at hlen
    | cons b w' =>
      have hb : b = 1 := hones b (List.mem_cons_self _ _)
      have hrest : ∀ x ∈ w', x = 1 := fun x hx =>
        hones x (List.mem_cons_of_mem _ hx)
      have hlen' : w'.length = l.length := by simpa using hlen
      rw [totW_cons, ih w' hlen' hrest, hb, List.length_cons]
      push_cast
      ring

theorem gini_evaluate_ones (l : List ℕ) (nc : ℕ) (w : List ℚ)
    (hlen : w.length = l.length) (hones : ∀ x ∈ w, x = 1) :
    GiniGain.Evaluate true l nc w = GiniGain.Evaluate false l nc w := by
  cases l with
  | nil => simp [GiniGain.Evaluate]
  | cons a l' =>
    have ht : totW (a :: l') w = ((a :: l').length : ℚ) :=
      totW_ones (a :: l') w hlen hones
    have hne : ((a :: l').length : ℚ) ≠ 0 :=
      Nat.cast_ne_zero.mpr (by simp)
    rw [GiniGain.Evaluate, GiniGain.Evaluate]
    simp only [if_neg (List.cons_ne_nil a l'), if_pos rfl, ht,
      Bool.true_eq_false, if_false, if_true]
    rw [if_neg hne]
    congr 2
    refine Finset.sum_congr rfl (fun c _ => ?_)
    rw [sumW_ones (a :: l') w hlen hones c]

theorem info_evaluate_ones (l : List ℕ) (nc : ℕ) (w : List ℚ)
    (hlen : w.length = l.length) (hones : ∀ x ∈ w, x = 1) :
    InformationGain.Evaluate true l nc w =
      InformationGain.Evaluate false l nc w := by
  cases l with
  | nil => simp [InformationGain.Evaluate]
  | cons a l' =>
    have ht : totW (a :: l') w = ((a :: l').length : ℚ) :=
      totW_ones (a :: l') w hlen hones
    have hne : ((a :: l').length : ℚ) ≠ 0 :=
      Nat.cast_ne_zero.mpr (by simp)
    rw [InformationGain.Evaluate, InformationGain.Evaluate]
    simp only [if_neg (List.cons_ne_nil a l'), if_pos rfl, ht,
      Bool.true_eq_false, if_false, if_true]
    rw [if_neg hne]
    refine Finset.sum_congr rfl (fun c _ => ?_)
    rw [sumW_ones (a :: l') w hlen hones c]

theorem rowWeightSum_ones {rows : List Row} (h : ∀ r ∈ rows, r.2.2 = 1) :
    rowWeightSum rows = rows.length := by
  induction rows with
  | nil => simp [rowWeightSum]
  | cons r rest ih =>
    have hr : r.2.2 = 1 := h r (List.mem_cons_self _ _)
    have hrest : ∀ x ∈ rest, x.2.2 = 1 := fun x hx =>
      h x (List.mem_cons_of_mem _ hx)
    rw [show rowWeightSum (r :: rest) = r.2.2 + rowWeightSum rest from by
        simp [rowWeightSum],
      hr, ih hrest, List.length_cons]
    push_cast
    ring

theorem rowWeights_length (rows : List Row) :
    (rowWeights rows).length = (rowLabels rows).length := by
  simp [rowWeights, rowLabels]

theorem rowWeights_ones {rows : List Row} (h : ∀ r ∈ rows, r.2.2 = 1) :
    ∀ x ∈ rowWeights rows, x = 1 := by
  intro x hx
  obtain ⟨r, hr, hrx⟩ := List.mem_map.1 hx
  rw [← hrx]
  exact h r hr

theorem combinedGini_ones {nc : ℕ} {L R : List Row}
    (hL : ∀ r ∈ L, r.2.2 = 1) (hR : ∀ r ∈ R, r.2.2 = 1) :
    combinedGini true nc L R = combinedGini false nc L R := by
  rw [combinedGini, combinedGini]
  simp only [if_pos rfl, Bool.true_eq_false, if_false, if_true]
  rw [rowWeightSum_ones hL, rowWeightSum_ones hR,
    gini_evaluate_ones (rowLabels L) nc (rowWeights L) (rowWeights_length L)
      (rowWeights_ones hL),
    gini_evaluate_ones (rowLabels R) nc (rowWeights R) (rowWeights_length R)
      (rowWeights_ones hR)]
  simp [rowLabels]

theorem candAux_ones {nc ml : ℕ} :
    ∀ (rest left : List Row) (prev : Row),
    (∀ r ∈ left ++ prev :: rest, r.2.2 = 1) →
    BestBinaryNumericSplit.candAux true nc ml left prev rest =
      BestBinaryNumericSplit.candAux false nc ml left prev rest := by
  intro rest
  induction rest with
  | nil =>
    intro left prev _
    rw [BestBinaryNumericSplit.candAux, BestBinaryNumericSplit.candAux]
  | cons cur rest' ih =>
    intro left prev h
    rw [BestBinaryNumericSplit.candAux, BestBinaryNumericSplit.candAux]
    have h2 : ∀ r ∈ (left ++ [prev]) ++ cur :: rest', r.2.2 = 1 := by
      intro r hr
      refine h r ?_
      simp at hr ⊢
      tauto
    rw [ih (left ++ [prev]) cur h2]
    congr 1
    split
    · have hcg : combinedGini true nc (left ++ [prev]) (cur :: rest') =
          combinedGini false nc (left ++ [prev]) (cur :: rest') := by
        refine combinedGini_ones (fun r hr => h2 r ?_) (fun r hr => h2 r ?_)
        · exact List.mem_append_left _ hr
        · exact List.mem_append_right _ hr
      rw [hcg]
    · rfl

theorem candidates_ones {nc ml : ℕ} {sorted : List Row}
    (h : ∀ r ∈ sorted, r.2.2 = 1) :
    BestBinaryNumericSplit.candidates true nc ml sorted =
      BestBinaryNumericSplit.candidates false nc ml sorted := by
  cases sorted with
  | nil => rfl
  | cons r rest =>
    rw [BestBinaryNumericSplit.candidates, BestBinaryNumericSplit.candidates]
    exact candAux_ones rest [] r (by simpa using h)

theorem rowsOf_ones_weight {v : List ℚ} {l : List ℕ} {w : List ℚ}
    (hones : ∀ x ∈ w, x = 1) {useW : Bool} :
    ∀ r ∈ rowsOf useW v l w, r.2.2 = 1 := by
  intro r hr
  have h2 := (List.of_mem_zip hr).2
  have h3 := (List.of_mem_zip h2).2
  rcases useW with _ | _
  · simp [rowsOf] at hr
    exact List.eq_of_mem_replicate h3
  · exact hones _ h3

theorem numericSplit_ones (bg : ℚ) (v : List ℚ) (l : List ℕ) (nc ml : ℕ)
    (hlen : v.length = l.length) :
    BestBinaryNumericSplit.SplitIfBetter true bg v l nc
        (List.replicate l.length 1) ml =
      BestBinaryNumericSplit.SplitIfBetter false bg v l nc
        (List.replicate l.length 1) ml := by
  have hrows : rowsOf true v l (List.replicate l.length 1) =
      rowsOf false v l (List.replicate l.length 1) := by
    simp [rowsOf, hlen]
  have hones : ∀ x ∈ List.replicate l.length (1 : ℚ), x = 1 := fun x hx =>
    List.eq_of_mem_replicate hx
  rw [BestBinaryNumericSplit.SplitIfBetter,
    BestBinaryNumericSplit.SplitIfBetter, BestBinaryNumericSplit.sortedRows,
    BestBinaryNumericSplit.sortedRows, hrows, candidates_ones]
  intro r hr
  exact rowsOf_ones_weight hones r
    ((List.perm_insertionSort rowLE _).mem_iff.1 hr)

theorem cWeights_sum_ones {rows : List AllCategoricalSplit.CRow}
    (h : ∀ r ∈ rows, r.2.2 = 1) :
    (AllCategoricalSplit.cWeights rows).sum = rows.length := by
  induction rows with
  | nil => simp [AllCategoricalSplit.cWeights]
  | cons r rest ih =>
    have hr : r.2.2 = 1 := h r (List.mem_cons_self _ _)
    have hrest : ∀ x ∈ rest, x.2.2 = 1 := fun x hx =>
      h x (List.mem_cons_of_mem _ hx)
    rw [show (AllCategoricalSplit.cWeights (r :: rest)).sum =
          r.2.2 + (AllCategoricalSplit.cWeights rest).sum from by
        simp [AllCategoricalSplit.cWeights],
      hr, ih hrest, List.length_cons]
    push_cast
    ring

theorem combinedGiniCat_ones {nCat nc : ℕ}
    {rows : List AllCategoricalSplit.CRow} (h : ∀ r ∈ rows, r.2.2 = 1) :
    AllCategoricalSplit.combinedGiniCat true nCat nc rows =
      AllCategoricalSplit.combinedGiniCat false nCat nc rows := by
  rw [AllCategoricalSplit.combinedGiniCat, AllCategoricalSplit.combinedGiniCat]
  simp only [if_pos rfl, Bool.true_eq_false, if_false, if_true]
  rw [cWeights_sum_ones h]
  congr 1
  refine Finset.sum_congr rfl (fun k _ => ?_)
  have hchild : ∀ r ∈ AllCategoricalSplit.child rows k, r.2.2 = 1 :=
    fun r hr => h r (List.mem_of_mem_filter hr)
  rw [cWeights_sum_ones hchild,
    gini_evaluate_ones (AllCategoricalSplit.cLabels _) nc
      (AllCategoricalSplit.cWeights _)
      (by simp [AllCategoricalSplit.cWeights, AllCategoricalSplit.cLabels])
      (by intro x hx
          obtain ⟨r, hr, hrx⟩ := List.mem_map.1 hx
          rw [← hrx]
          exact hchild r hr)]

theorem catSplit_ones (bg : ℚ) (v : List ℕ) (nCat : ℕ) (l : List ℕ)
    (nc ml : ℕ) (hlen : v.length = l.length) :
    AllCategoricalSplit.SplitIfBetter true bg v nCat l nc
        (List.replicate l.length 1) ml =
      AllCategoricalSplit.SplitIfBetter false bg v nCat l nc
        (List.replicate l.length 1) ml := by
  have hrows : AllCategoricalSplit.crowsOf true v l (List.replicate l.length 1) =
      AllCategoricalSplit.crowsOf false v l (List.replicate l.length 1) := by
    simp [AllCategoricalSplit.crowsOf, hlen]
  have hones : ∀ r ∈ AllCategoricalSplit.crowsOf false v l
      (List.replicate l.length 1), r.2.2 = 1 := by
    intro r hr
    have h2 := (List.of_mem_zip hr).2
    have h3 := (List.of_mem_zip h2).2
    exact List.eq_of_mem_replicate h3
  rw [AllCategoricalSplit.SplitIfBetter, AllCategoricalSplit.SplitIfBetter,
    hrows, combinedGiniCat_ones hones]

/-- C1: with a weight vector of all ones, weighted evaluation equals
unweighted evaluation exactly for both impurity metrics, on every label
vector and every `numClasses ≥ 1`; likewise `SplitIfBetter<true>` returns
the same result as `SplitIfBetter<false>` for both split strategies (here
instantiated, as in the tests, with the Gini metric). -/
theorem claim1_unit_weights_degenerate (labels : List ℕ) (numClasses : ℕ)
    (hnc : 1 ≤ numClasses) :
    (GiniGain.Evaluate true labels numClasses
        (List.replicate labels.length 1) =
      GiniGain.Evaluate false labels numClasses
        (List.replicate labels.length 1)) ∧
    (InformationGain.Evaluate true labels numClasses
        (List.replicate labels.length 1) =
      InformationGain.Evaluate false labels numClasses
        (List.replicate labels.length 1)) ∧
    (∀ (bestGain : ℚ) (values : List ℚ) (minLeafSize : ℕ),
      values.length = labels.length →
      BestBinaryNumericSplit.SplitIfBetter true bestGain values labels
          numClasses (List.replicate labels.length 1) minLeafSize =
        BestBinaryNumericSplit.SplitIfBetter false bestGain values labels
          numClasses (List.replicate labels.length 1) minLeafSize) ∧
    (∀ (bestGain : ℚ) (values : List ℕ) (numCategories minLeafSize : ℕ),
      values.length = labels.length →
      AllCategoricalSplit.SplitIfBetter true bestGain values numCategories
          labels numClasses (List.replicate labels.length 1) minLeafSize =
        AllCategoricalSplit.SplitIfBetter false bestGain values numCategories
          labels numClasses (List.replicate labels.length 1) minLeafSize) := by
  refine ⟨?_, ?_, ?_, ?_⟩
  · exact gini_evaluate_ones labels numClasses _ (by simp)
      (fun x hx => List.eq_of_mem_replicate hx)
  · exact info_evaluate_ones labels numClasses _ (by simp)
      (fun x hx => List.eq_of_mem_replicate hx)
  · intro bg v ml hlen
    exact numericSplit_ones bg v labels numClasses ml hlen
  · intro bg v nCat ml hlen
    exact catSplit_ones bg v nCat labels numClasses ml hlen

/-- Witness for C1 at the label vector of `GiniGainEvenSplitTest` with
`numClasses = 2`, the values of `BestBinaryNumericSplitSimpleSplitTest`,
and the categorical input of `AllCategoricalSplitSimpleSplitTest`. -/
theorem claim1_unit_weights_degenerate_witness :
    (1 ≤ 2) ∧
    (GiniGain.Evaluate true [0, 0, 1, 1] 2 (List.replicate 4 1) =
      GiniGain.Evaluate false [0, 0, 1, 1] 2 (List.replicate 4 1)) := by
  have h := claim1_unit_weights_degenerate [0, 0, 1, 1] 2 (by norm_num)
  exact ⟨by norm_num, by simpa using h.1⟩

/-! ### Evenly distributed classes (claim C5) -/

/-- C5: on a label vector in which each of `K ≥ 2` classes occurs exactly
`m ≥ 1` times (unit weights), the Gini gain is `-(1 - 1/K)` and the
information gain is `log2(1/K)`, for the weighted and the unweighted
evaluation alike; the result does not depend on the number of points
`N = K·m` for these fixed class proportions, nor on the `numClasses`
argument as long as `numClasses ≥ K`. -/
theorem claim5_even_classes_eval (K m nc : ℕ) (labels : List ℕ)
    (hK : 2 ≤ K) (hm : 1 ≤ m) (hnc : K ≤ nc)
    (hmem : ∀ x ∈ labels, x < K)
    (hcount : ∀ c < K, labels.count c = m)
    (hlen : labels.length = K * m) :
    GiniGain.Evaluate false labels nc (List.replicate labels.length 1) =
        -(1 - 1 / (K : ℚ)) ∧
    GiniGain.Evaluate true labels nc (List.replicate labels.length 1) =
        -(1 - 1 / (K : ℚ)) ∧
    InformationGain.Evaluate false labels nc
        (List.replicate labels.length 1) = Real.logb 2 (1 / (K : ℝ)) ∧
    InformationGain.Evaluate true labels nc
        (List.replicate labels.length 1) = Real.logb 2 (1 / (K : ℝ)) := by
  have hKQ : ((K : ℚ)) ≠ 0 := Nat.cast_ne_zero.mpr (by omega)
  have hmQ : ((m : ℚ)) ≠ 0 := Nat.cast_ne_zero.mpr (by omega)
  have hne : labels ≠ [] := by
    intro h
    rw [h] at hlen
    simp at hlen
    omega
  have hlenQ : ((labels.length : ℚ)) = (K : ℚ) * m := by
    rw [hlen]; push_cast; ring
  have hprop : ∀ c ∈ Finset.range K,
      ((labels.count c : ℚ)) / (labels.length : ℚ) = 1 / K := by
    intro c hc
    rw [hcount c (Finset.mem_range.1 hc), hlenQ]
    field_simp
    ring
  have hzero : ∀ c ∈ Finset.range nc, c ∉ Finset.range K →
      labels.count c = 0 := by
    intro c _ hcK
    refine List.count_eq_zero_of_not_mem (fun hmem2 => ?_)
    exact hcK (Finset.mem_range.2 (hmem c hmem2))
  have hgini : GiniGain.Evaluate false labels nc
      (List.replicate labels.length 1) = -(1 - 1 / (K : ℚ)) := by
    rw [GiniGain.Evaluate, if_neg hne]
    simp only [Bool.false_eq_true, if_false]
    have hsum : ∑ c ∈ Finset.range nc,
        ((labels.count c : ℚ) / (labels.length : ℚ)) ^ 2 = 1 / K := by
      rw [← Finset.sum_subset (Finset.range_subset.mpr hnc)
        (fun c hc hcK => by rw [hzero c hc hcK]; simp)]
      rw [Finset.sum_congr rfl (fun c hc => by rw [hprop c hc])]
      rw [Finset.sum_const, Finset.card_range, nsmul_eq_mul]
      field_simp
      ring
    rw [hsum]
  have hinfo : InformationGain.Evaluate false labels nc
      (List.replicate labels.length 1) = Real.logb 2 (1 / (K : ℝ)) := by
    rw [InformationGain.Evaluate, if_neg hne]
    simp only [Bool.false_eq_true, if_false]
    have hsum : ∑ c ∈ Finset.range nc,
        plog2 ((labels.count c : ℚ) / (labels.length : ℚ)) =
        Real.logb 2 (1 / (K : ℝ)) := by
      rw [← Finset.sum_subset (Finset.range_subset.mpr hnc)
        (fun c hc hcK => by rw [hzero c hc hcK]; simp [plog2])]
      rw [Finset.sum_congr rfl (fun c hc => by rw [hprop c hc])]
      rw [Finset.sum_const, Finset.card_range, nsmul_eq_mul]
      have h1K : ((1 : ℚ) / K) ≠ 0 := by
        simp [hKQ]
      rw [plog2, if_neg h1K]
      have hcast : (((1 : ℚ) / K : ℚ) : ℝ) = 1 / (K : ℝ) := by
        push_cast
        ring
      rw [hcast]
      have hKR : ((K : ℝ)) ≠ 0 := Nat.cast_ne_zero.mpr (by omega)
      field_simp
    rw [hsum]
  have hones : ∀ x ∈ List.replicate labels.length (1 : ℚ), x = 1 :=
    fun x hx => List.eq_of_mem_replicate hx
  refine ⟨hgini, ?_, hinfo, ?_⟩
  · rw [gini_evaluate_ones labels nc _ (by simp) hones]
    exact hgini
  · rw [info_evaluate_ones labels nc _ (by simp) hones]
    exact hinfo

/-- Witness for C5 at `K = 2`, `m = 2`, `numClasses = 3`,
`labels = [0, 1, 0, 1]`. -/
theorem claim5_even_classes_eval_witness :
    (2 ≤ 2 ∧ 1 ≤ 2 ∧ 2 ≤ 3 ∧ (∀ x ∈ [0, 1, 0, 1], x < 2) ∧
      (∀ c < 2, List.count c [0, 1, 0, 1] = 2) ∧
      List.length [0, 1, 0, 1] = 2 * 2) ∧
    (GiniGain.Evaluate false [0, 1, 0, 1] 3 (List.replicate 4 1) =
        -(1 - 1 / (2 : ℚ)) ∧
      GiniGain.Evaluate true [0, 1, 0, 1] 3 (List.replicate 4 1) =
        -(1 - 1 / (2 : ℚ)) ∧
      InformationGain.Evaluate false [0, 1, 0, 1] 3 (List.replicate 4 1) =
        Real.logb 2 (1 / (2 : ℝ)) ∧
      InformationGain.Evaluate true [0, 1, 0, 1] 3 (List.replicate 4 1) =
        Real.logb 2 (1 / (2 : ℝ))) := by
  have h1 : ∀ x ∈ [0, 1, 0, 1], x < 2 := by decide
  have h2 : ∀ c < 2, List.count c [0, 1, 0, 1] = 2 := by decide
  have h3 : List.length [0, 1, 0, 1] = 2 * 2 := by decide
  have h := claim5_even_classes_eval 2 2 3 [0, 1, 0, 1] (by norm_num)
    (by norm_num) (by norm_num) h1 h2 h3
  exact ⟨⟨by norm_num, by norm_num, by norm_num, h1, h2, h3⟩, by simpa using h⟩

/-! ### Builder lemmas (claims C7 and C8) -/

theorem trialSplit_nil (u : Bool) (nc ml : ℕ) (b : ℚ) (d : ℕ) :
    trialSplit u nc ml [] b d = (b, []) := by
  rw [trialSplit, BestBinaryNumericSplit.SplitIfBetter]
  split
  · rfl
  · rfl

theorem selectDim_nil (u : Bool) (nc ml : ℕ) (b : ℚ) (nd : ℕ) :
    selectDim u nc ml [] b nd = none := by
  rw [selectDim]
  generalize List.range nd = ds
  induction ds with
  | nil => rfl
  | cons d ds ih =>
    rw [selectAux, ih, trialSplit_nil]
    exact if_neg (lt_irrefl b)

theorem buildFuel_nil (u : Bool) (nd nc ml : ℕ) :
    ∀ f, buildFuel u nd nc ml f [] =
      .leaf (leafProbs u nc (bLabels []) (bWeights [])) := by
  intro f
  cases f with
  | zero => rfl
  | succ f' =>
    rw [buildFuel]
    by_cases h : ([] : List BRow).length < 2 * ml
    · rw [if_pos h]
    · rw [if_neg h]
      simp only [selectDim_nil]

theorem buildFuel_stable (u : Bool) (nd nc ml : ℕ) :
    ∀ (f g : ℕ) (rows : List BRow), rows.length ≤ f → rows.length ≤ g →
    buildFuel u nd nc ml f rows = buildFuel u nd nc ml g rows := by
  intro f
  induction f with
  | zero =>
    intro g rows hf _
    have : rows = [] := List.length_eq_zero.mp (Nat.le_zero.mp hf)
    subst this
    rw [buildFuel_nil, buildFuel_nil]
  | succ f' ih =>
    intro g rows hf hg
    cases rows with
    | nil => rw [buildFuel_nil, buildFuel_nil]
    | cons r rest =>
      cases g with
      | zero => simp at hg
      | succ g' =>
        rw [buildFuel, buildFuel]
        by_cases hlen : (r :: rest).length < 2 * ml
        · rw [if_pos hlen, if_pos hlen]
        · rw [if_neg hlen, if_neg hlen]
          rcases hsel : selectDim u nc ml (r :: rest)
              (GiniGain.Evaluate u (bLabels (r :: rest)) nc
                (bWeights (r :: rest))) nd with _ | ⟨d, g0, out⟩
          · simp only [hsel]
          · rcases out with _ | ⟨t, out2⟩
            · simp only [hsel]
            · rcases out2 with _ | ⟨t2, out3⟩
              · simp only [hsel]
                by_cases hguard :
                    ((r :: rest).filter (fun x => x.1.getD d 0 ≤ t)).length <
                        (r :: rest).length ∧
                      ((r :: rest).filter (fun x => t < x.1.getD d 0)).length <
                        (r :: rest).length
                · rw [if_pos hguard, if_pos hguard]
                  have hL := hguard.1
                  have hR := hguard.2
                  rw [ih f' _ (by omega) (by omega),
                    ih g' _ (by omega) (by omega),
                    ih f' _ (by omega) (by omega),
                    ih g' _ (by omega) (by omega)]
                · rw [if_neg hguard, if_neg hguard]
              · simp only [hsel]

theorem treeDepth_buildFuel_le (u : Bool) (nd nc ml : ℕ) :
    ∀ (f : ℕ) (rows : List BRow),
    treeDepth (buildFuel u nd nc ml f rows) ≤ f := by
  intro f
  induction f with
  | zero => intro rows; rw [buildFuel, treeDepth]
  | succ f' ih =>
    intro rows
    rw [buildFuel]
    by_cases hlen : rows.length < 2 * ml
    · rw [if_pos hlen, treeDepth]
      omega
    · rw [if_neg hlen]
      rcases hsel : selectDim u nc ml rows
          (GiniGain.Evaluate u (bLabels rows) nc (bWeights rows)) nd
          with _ | ⟨d, g0, out⟩
      · simp only [hsel, treeDepth]
        omega
      · rcases out with _ | ⟨t, out2⟩
        · simp only [hsel, treeDepth]
          omega
        · rcases out2 with _ | ⟨t2, out3⟩
          · simp only [hsel]
            by_cases hguard :
                (rows.filter (fun x => x.1.getD d 0 ≤ t)).length <
                    rows.length ∧
                  (rows.filter (fun x => t < x.1.getD d 0)).length <
                    rows.length
            · rw [if_pos hguard, treeDepth]
              have h1 := ih (rows.filter (fun x => x.1.getD d 0 ≤ t))
              have h2 := ih (rows.filter (fun x => t < x.1.getD d 0))
              have h3 := Nat.max_le.mpr ⟨h1, h2⟩
              omega
            · rw [if_neg hguard, treeDepth]
              omega
          · simp only [hsel, treeDepth]
            omega

/-- C8: the recursive build terminates.  A node becomes a leaf whenever
`count < 2·minLeafSize`; every internal node's children are builds over
strictly smaller partitions; and consequently the recursion depth is finite,
bounded by the partition size. -/
theorem claim8_build_terminates :
    (∀ (u : Bool) (nd nc ml : ℕ) (rows : List BRow),
      rows.length < 2 * ml →
      buildTree u nd nc ml rows =
        .leaf (leafProbs u nc (bLabels rows) (bWeights rows))) ∧
    (∀ (u : Bool) (nd nc ml : ℕ) (rows : List BRow) (p : List ℚ) (d : ℕ)
        (t : ℚ) (cl cr : DTree),
      buildTree u nd nc ml rows = .numNode p d t cl cr →
      ∃ L R : List BRow, L.length < rows.length ∧ R.length < rows.length ∧
        cl = buildTree u nd nc ml L ∧ cr = buildTree u nd nc ml R) ∧
    (∀ (u : Bool) (nd nc ml : ℕ) (rows : List BRow),
      treeDepth (buildTree u nd nc ml rows) ≤ rows.length) := by
  refine ⟨?_, ?_, ?_⟩
  · intro u nd nc ml rows h
    rw [buildTree]
    cases hrows : rows.length with
    | zero => rw [buildFuel]
    | succ n => rw [buildFuel, if_pos (hrows ▸ h)]
  · intro u nd nc ml rows p d t cl cr h
    rw [buildTree] at h
    cases hrows : rows.length with
    | zero =>
      rw [hrows, buildFuel] at h
      exact absurd h (by simp)
    | succ n =>
      rw [hrows, buildFuel] at h
      by_cases hlen : rows.length < 2 * ml
      · rw [if_pos hlen] at h
        exact absurd h (by simp)
      · rw [if_neg hlen] at h
        rcases hsel : selectDim u nc ml rows
            (GiniGain.Evaluate u (bLabels rows) nc (bWeights rows)) nd
            with _ | ⟨d0, g0, out⟩
        · simp only [hsel] at h
          exact absurd h (by simp)
        · rcases out with _ | ⟨t0, out2⟩
          · simp only [hsel] at h
            exact absurd h (by simp)
          · rcases out2 with _ | ⟨t2, out3⟩
            · simp only [hsel] at h
              by_cases hguard :
                  (rows.filter (fun x => x.1.getD d0 0 ≤ t0)).length <
                      rows.length ∧
                    (rows.filter (fun x => t0 < x.1.getD d0 0)).length <
                      rows.length
              · rw [if_pos hguard] at h
                simp only [DTree.numNode.injEq] at h
                obtain ⟨_, hd, ht, hcl, hcr⟩ := h
                subst hd
                subst ht
                refine ⟨rows.filter (fun x => x.1.getD d0 0 ≤ t0),
                  rows.filter (fun x => t0 < x.1.getD d0 0),
                  hrows ▸ hguard.1, hrows ▸ hguard.2, ?_, ?_⟩
                · rw [← hcl, buildTree]
                  exact buildFuel_stable u nd nc ml n _ _
                    (by have := hguard.1; omega) (le_refl _)
                · rw [← hcr, buildTree]
                  exact buildFuel_stable u nd nc ml n _ _
                    (by have := hguard.2; omega) (le_refl _)
              · rw [if_neg hguard] at h
                exact absurd h (by simp)
            · simp only [hsel] at h
              exact absurd h (by simp)
  · intro u nd nc ml rows
    rw [buildTree]
    exact treeDepth_buildFuel_le u nd nc ml rows.length rows

/-- Witness for C8: the leaf condition at a 1-point partition with
`minLeafSize = 1`, the strict-shrink condition at a 2-point partition that
does split, and the depth bound on the same build. -/
theorem claim8_build_terminates_witness :
    ((1 : ℕ) < 2 * 1 ∧
      buildTree false 1 2 1 [([0], 0, 1)] =
        .leaf (leafProbs false 2 (bLabels [([0], 0, 1)])
          (bWeights [([0], 0, 1)]))) ∧
    (buildTree false 1 2 1 [([0], 0, 1), ([1], 1, 1)] =
        DTree.numNode [1/2, 1/2] 0 (1/2) (DTree.leaf [1, 0])
          (DTree.leaf [0, 1]) ∧
      ∃ L R : List BRow, L.length < 2 ∧ R.length < 2 ∧
        DTree.leaf [1, 0] = buildTree false 1 2 1 L ∧
        DTree.leaf [0, 1] = buildTree false 1 2 1 R) ∧
    treeDepth (buildTree false 1 2 1 [([0], 0, 1), ([1], 1, 1)]) ≤ 2 := by
  have h : buildTree false 1 2 1 [([0], 0, 1), ([1], 1, 1)] =
      DTree.numNode [1/2, 1/2] 0 (1/2) (DTree.leaf [1, 0])
        (DTree.leaf [0, 1]) := by
    norm_num [buildTree, buildFuel, selectDim, selectAux, trialSplit,
      leafProbs, colVals, bLabels, bWeights, List.range_succ,
      BestBinaryNumericSplit.SplitIfBetter, BestBinaryNumericSplit.sortedRows,
      BestBinaryNumericSplit.candidates, BestBinaryNumericSplit.candAux,
      BestBinaryNumericSplit.pickBest, rowsOf, List.insertionSort,
      List.orderedInsert, rowLE, List.zip, List.zipWith, List.replicate,
      combinedGini, rowLabels, rowWeights, GiniGain.Evaluate,
      Finset.sum_range_succ, List.count_cons, List.count_nil,
      List.cons_ne_nil, List.filter, totW, sumW]
  refine ⟨⟨by norm_num, claim8_build_terminates.1 false 1 2 1 _ (by norm_num)⟩,
    ⟨h, ?_⟩, claim8_build_terminates.2.2 false 1 2 1 _⟩
  simpa using claim8_build_terminates.2.1 false 1 2 1
    [([0], 0, 1), ([1], 1, 1)] [1/2, 1/2] 0 (1/2) (DTree.leaf [1, 0])
    (DTree.leaf [0, 1]) h

/-! ### Purity, one-hot vectors and the predicted label (claim C7) -/

theorem gini_false_formula (l : List ℕ) (nc : ℕ) (w : List ℚ)
    (hne : l ≠ []) :
    GiniGain.Evaluate false l nc w =
      (∑ c ∈ Finset.range nc, ((l.count c : ℚ)) ^ 2) /
        ((l.length : ℚ)) ^ 2 - 1 := by
  rw [GiniGain.Evaluate, if_neg hne]
  simp only [Bool.false_eq_true, if_false]
  rw [Finset.sum_div]
  have h : ∀ c ∈ Finset.range nc,
      ((l.count c : ℚ) / (l.length : ℚ)) ^ 2 =
      ((l.count c : ℚ)) ^ 2 / ((l.length : ℚ)) ^ 2 := fun c _ =>
    div_pow _ _ 2
  rw [Finset.sum_congr rfl h]
  ring

theorem gini_false_pure (l : List ℕ) (nc : ℕ) (w : List ℚ) (k : ℕ)
    (hall : ∀ x ∈ l, x = k) (hk : k < nc) (hne : l ≠ []) :
    GiniGain.Evaluate false l nc w = 0 := by
  have hlen : ((l.length : ℚ)) ≠ 0 :=
    Nat.cast_ne_zero.mpr (fun h => hne (List.length_eq_zero.mp h))
  rw [gini_false_formula l nc w hne]
  have hsum : ∑ c ∈ Finset.range nc, ((l.count c : ℚ)) ^ 2 =
      ((l.length : ℚ)) ^ 2 := by
    have hk2 : l.count k = l.length :=
      List.count_eq_length.mpr (fun b hb => (hall b hb).symm)
    rw [Finset.sum_eq_single k]
    · rw [hk2]
    · intro c _ hck
      have : l.count c = 0 := List.count_eq_zero.mpr (fun hc =>
        hck ((hall c hc) ▸ rfl))
      rw [this]
      norm_num
    · intro hknot
      exact absurd (Finset.mem_range.2 hk) hknot
  rw [hsum]
  field_simp

theorem count_perm {l l' : List ℕ} (h : l.Perm l') (c : ℕ) :
    l.count c = l'.count c := h.count_eq c

theorem gini_false_perm {l l' : List ℕ} (h : l.Perm l') (nc : ℕ)
    (w w' : List ℚ) :
    GiniGain.Evaluate false l nc w = GiniGain.Evaluate false l' nc w' := by
  cases hl : l with
  | nil =>
    have : l' = [] := List.eq_nil_of_length_eq_zero (by
      rw [← h.length_eq, hl]; rfl)
    rw [this]
    rfl
  | cons a rest =>
    have hne : l ≠ [] := by rw [hl]; exact List.cons_ne_nil a rest
    have hne' : l' ≠ [] := by
      intro hnil
      rw [hnil] at h
      exact hne (List.eq_nil_of_length_eq_zero (by simp [h.length_eq]))
    rw [← hl]
    rw [gini_false_formula l nc w hne, gini_false_formula l' nc w' hne',
      h.length_eq]
    congr 2
    exact Finset.sum_congr rfl (fun c _ => by rw [count_perm h c])

theorem leafProbs_pure (nc : ℕ) (l : List ℕ) (w : List ℚ) (k : ℕ)
    (hall : ∀ x ∈ l, x = k) (hk : k < nc) (hne : l ≠ []) :
    leafProbs false nc l w = oneHot nc k := by
  have hlen : ((l.length : ℚ)) ≠ 0 :=
    Nat.cast_ne_zero.mpr (fun h => hne (List.length_eq_zero.mp h))
  rw [leafProbs, oneHot]
  simp only [Bool.false_eq_true, if_false]
  rw [if_neg hlen]
  refine List.map_congr_left (fun c _ => ?_)
  by_cases hck : c = k
  · subst hck
    rw [if_pos rfl, List.count_eq_length.mpr (fun b hb => (hall b hb).symm)]
    field_simp
  · rw [if_neg hck, List.count_eq_zero.mpr (fun hc => hck (hall c hc))]
    simp

theorem oneHot_length (n c : ℕ) : (oneHot n c).length = n := by
  rw [oneHot]
  simp

theorem oneHot_zeros (n c : ℕ) (h : n ≤ c) :
    (List.range n).map (fun j => if j = c then (1 : ℚ) else 0) =
      List.replicate n 0 := by
  induction n with
  | zero => rfl
  | succ n ih =>
    rw [List.range_succ, List.map_append, ih (by omega)]
    have hnc : n ≠ c := by omega
    rw [show List.map (fun j => if j = c then (1 : ℚ) else 0) [n] = [0]
        from by simp [hnc],
      List.replicate_add]
    simp

theorem oneHot_concat (n c : ℕ) (h : c < n) :
    oneHot n c = List.replicate c 0 ++ 1 :: List.replicate (n - c - 1) 0 := by
  induction n with
  | zero => omega
  | succ n ih =>
    rw [oneHot, List.range_succ, List.map_append]
    by_cases hcn : c = n
    · subst hcn
      rw [oneHot_zeros c c (le_refl c)]
      simp
    · have hcn2 : c < n := by omega
      have hIH := ih hcn2
      rw [oneHot] at hIH
      rw [hIH]
      have hnc : n ≠ c := fun h2 => hcn h2.symm
      have hmap : (List.map (fun j => if j = c then (1 : ℚ) else 0) [n]) =
          [0] := by simp [hnc]
      rw [hmap, List.append_assoc, List.cons_append]
      have hrep : List.replicate (n - c - 1) (0 : ℚ) ++ [0] =
          List.replicate (n + 1 - c - 1) 0 := by
        rw [show n + 1 - c - 1 = (n - c - 1) + 1 from by omega,
          List.replicate_add]
        simp
      rw [hrep]

theorem argmaxAux_no_gt (best : ℚ) (bi : ℕ) :
    ∀ (l : List ℚ) (i : ℕ), (∀ p ∈ l, ¬ best < p) →
    argmaxAux best bi i l = bi := by
  intro l
  induction l with
  | nil => intro i _; rfl
  | cons p rest ih =>
    intro i h
    rw [argmaxAux, if_neg (h p (List.mem_cons_self _ _))]
    exact ih (i + 1) (fun q hq => h q (List.mem_cons_of_mem _ hq))

theorem argmaxAux_zeros (k : ℕ) :
    ∀ (m bi i : ℕ),
    argmaxAux 0 bi i (List.replicate m 0 ++ 1 :: List.replicate k 0) =
      i + m := by
  intro m
  induction m with
  | zero =>
    intro bi i
    rw [List.replicate_zero, List.nil_append, argmaxAux,
      if_pos (by norm_num : (0 : ℚ) < 1),
      argmaxAux_no_gt 1 i (List.replicate k 0) (i + 1)
        (fun p hp => by rw [List.eq_of_mem_replicate hp]; norm_num)]
    omega
  | succ m ih =>
    intro bi i
    rw [List.replicate_succ, List.cons_append, argmaxAux,
      if_neg (lt_irrefl (0 : ℚ)), ih bi (i + 1)]
    omega

theorem predictLabel_oneHot (n c : ℕ) (h : c < n) :
    predictLabel (oneHot n c) = c := by
  rw [oneHot_concat n c h]
  cases c with
  | zero =>
    rw [List.replicate_zero, List.nil_append, predictLabel,
      argmaxAux_no_gt 1 0 (List.replicate (n - 0 - 1) 0) 1
        (fun p hp => by rw [List.eq_of_mem_replicate hp]; norm_num)]
  | succ c' =>
    rw [List.replicate_succ, List.cons_append, predictLabel,
      argmaxAux_zeros (n - (c' + 1) - 1) c' 0 1]
    omega

/-- The mathematical core of claim C7: cutting one point (of label `k`)
off an impure partition strictly improves the count-weighted average Gini
impurity over the partition's own impurity (a strict-concavity argument:
the numerator of the improvement is `(B - bₖ)² + Σ_{c ≠ k} b_c² > 0`). -/
theorem gini_single_split_gt (k nc : ℕ) (R : List ℕ) (w w1 w2 : List ℚ)
    (hk : k < nc) (hR : R ≠ []) (himp : ∃ j ∈ R, j ≠ k) :
    GiniGain.Evaluate false (k :: R) nc w <
      ((1 : ℚ) * GiniGain.Evaluate false [k] nc w1 +
        (R.length : ℚ) * GiniGain.Evaluate false R nc w2) /
        (1 + (R.length : ℚ)) := by
  obtain ⟨j, hj, hjk⟩ := himp
  have hBnat : 0 < R.length := List.length_pos.mpr hR
  set B : ℚ := (R.length : ℚ) with hBdef
  have hBpos : (0 : ℚ) < B := by rw [hBdef]; exact_mod_cast hBnat
  have hcount_lt : R.count k < R.length := by
    rcases Nat.lt_or_ge (R.count k) R.length with h | h
    · exact h
    · have heq : R.count k = R.length :=
        le_antisymm (List.count_le_length _ _) h
      exact absurd ((List.count_eq_length.mp heq) j hj).symm hjk
  set S : ℚ := ∑ c ∈ Finset.range nc, ((R.count c : ℚ)) ^ 2 with hSdef
  set bk : ℚ := ((R.count k : ℚ)) with hbkdef
  have hpure : GiniGain.Evaluate false [k] nc w1 = 0 :=
    gini_false_pure [k] nc w1 k (by simp) hk (List.cons_ne_nil _ _)
  have hformR : GiniGain.Evaluate false R nc w2 = S / B ^ 2 - 1 :=
    gini_false_formula R nc w2 hR
  have hlenm : (((k :: R).length : ℚ)) = B + 1 := by
    rw [List.length_cons]
    push_cast
    ring
  have hformM : GiniGain.Evaluate false (k :: R) nc w =
      (S + 2 * bk + 1) / (B + 1) ^ 2 - 1 := by
    rw [gini_false_formula (k :: R) nc w (List.cons_ne_nil _ _), hlenm]
    congr 1
    congr 1
    have hterm : ∀ c ∈ Finset.range nc,
        (((k :: R).count c : ℚ)) ^ 2 =
        ((R.count c : ℚ)) ^ 2 +
          (if c = k then 2 * ((R.count c : ℚ)) + 1 else 0) := by
      intro c _
      rw [List.count_cons]
      simp only [beq_iff_eq]
      by_cases hck : c = k
      · subst hck
        rw [if_pos rfl, if_pos rfl]
        push_cast
        ring
      · rw [if_neg (fun h => hck h.symm), if_neg hck]
        push_cast
        ring
    rw [Finset.sum_congr rfl hterm, Finset.sum_add_distrib,
      Finset.sum_ite_eq' (Finset.range nc) k
        (fun c => 2 * ((R.count c : ℚ)) + 1),
      if_pos (Finset.mem_range.2 hk), hSdef, hbkdef]
    ring
  have hSbk : bk ^ 2 ≤ S := by
    rw [hSdef, hbkdef]
    exact Finset.single_le_sum (f := fun c => ((R.count c : ℚ)) ^ 2)
      (fun i _ => sq_nonneg _) (Finset.mem_range.2 hk)
  have hbkB : bk < B := by
    rw [hbkdef, hBdef]
    exact_mod_cast hcount_lt
  have hNUM : 0 < S - 2 * B * bk + B ^ 2 := by
    have hsq : 0 < (B - bk) ^ 2 := pow_pos (by linarith) 2
    nlinarith [hSbk, hsq]
  have hB1 : (0 : ℚ) < B + 1 := by linarith
  have hdiff : ((1 : ℚ) * GiniGain.Evaluate false [k] nc w1 +
        B * GiniGain.Evaluate false R nc w2) / (1 + B) -
      GiniGain.Evaluate false (k :: R) nc w =
      (S - 2 * B * bk + B ^ 2) / ((B + 1) ^ 2 * B) := by
    rw [hpure, hformR, hformM]
    field_simp
    ring
  have hpos : 0 < (S - 2 * B * bk + B ^ 2) / ((B + 1) ^ 2 * B) :=
    div_pos hNUM (by positivity)
  rw [← hdiff] at hpos
  linarith

theorem rowsOf_labels_false :
    ∀ (v : List ℚ) (l : List ℕ) (w : List ℚ), v.length = l.length →
    rowLabels (rowsOf false v l w) = l := by
  intro v
  induction v with
  | nil =>
    intro l w h
    cases l with
    | nil => rfl
    | cons b l' => simp at h
  | cons a v' ih =>
    intro l w h
    cases l with
    | nil => simp at h
    | cons b l' =>
      have h' : v'.length = l'.length := by simpa using h
      have htail := ih l' w h'
      rw [rowsOf] at htail ⊢
      simp only [Bool.false_eq_true, if_false] at htail ⊢
      rw [List.length_cons, List.replicate_succ, List.zip_cons_cons,
        List.zip_cons_cons, rowLabels, List.map_cons]
      rw [rowLabels] at htail
      rw [htail]

theorem rowsOf_vals_false :
    ∀ (v : List ℚ) (l : List ℕ) (w : List ℚ), v.length = l.length →
    (rowsOf false v l w).map (fun r => r.1) = v := by
  intro v
  induction v with
  | nil => intro l w _; rfl
  | cons a v' ih =>
    intro l w h
    cases l with
    | nil => simp at h
    | cons b l' =>
      have h' : v'.length = l'.length := by simpa using h
      have htail := ih l' w h'
      rw [rowsOf] at htail ⊢
      simp only [Bool.false_eq_true, if_false] at htail ⊢
      rw [List.length_cons, List.replicate_succ, List.zip_cons_cons,
        List.zip_cons_cons, List.map_cons, htail]

theorem rowsOf_mem_label {u : Bool} {v : List ℚ} {l : List ℕ} {w : List ℚ}
    {r : Row} (h : r ∈ rowsOf u v l w) : r.2.1 ∈ l := by
  obtain ⟨rv, rl, rw2⟩ := r
  exact (List.of_mem_zip (List.of_mem_zip h).2).1

/-- The result of the numeric split is at least every candidate gain and at
least the incoming best gain (when the size precondition is met). -/
theorem SplitIfBetter_ge_candidate {useW : Bool} {bg : ℚ} {v : List ℚ}
    {l : List ℕ} {nc : ℕ} {w : List ℚ} {ml : ℕ} {g t : ℚ}
    (hnlt : ¬ (v.length < 2 * ml))
    (hmem : (g, t) ∈ BestBinaryNumericSplit.candidates useW nc ml
      (BestBinaryNumericSplit.sortedRows useW v l w)) :
    g ≤ (BestBinaryNumericSplit.SplitIfBetter useW bg v l nc w ml).1 := by
  rw [BestBinaryNumericSplit.SplitIfBetter, if_neg hnlt]
  rcases hpick : BestBinaryNumericSplit.pickBest
      (BestBinaryNumericSplit.candidates useW nc ml
        (BestBinaryNumericSplit.sortedRows useW v l w)) with _ | ⟨g0, t0⟩
  · rw [pickBest_eq_none hpick] at hmem
    exact absurd hmem (List.not_mem_nil _)
  · have hle : g ≤ g0 := pickBest_ge hpick (g, t) hmem
    show g ≤ (if bg < g0 then (g0, [t0]) else (bg, ([] : List ℚ))).1
    by_cases hgt : bg < g0
    · rw [if_pos hgt]
      exact hle
    · rw [if_neg hgt]
      exact le_trans hle (le_of_not_lt hgt)

/-- On a column with pairwise distinct values, at least two points, labels
inside `[0, numClasses)` and an impure label multiset, the numeric split
with `minLeafSize = 1` strictly improves on the baseline impurity. -/
theorem numericSplit_improves (v : List ℚ) (l : List ℕ) (nc : ℕ)
    (w w0 : List ℚ) (hlen : v.length = l.length) (hnodup : v.Nodup)
    (hN : 2 ≤ v.length) (hmem : ∀ x ∈ l, x < nc)
    (himp : ∃ a ∈ l, ∃ b ∈ l, a ≠ b) :
    GiniGain.Evaluate false l nc w0 <
      (BestBinaryNumericSplit.SplitIfBetter false
        (GiniGain.Evaluate false l nc w0) v l nc w 1).1 := by
  have hperm : (BestBinaryNumericSplit.sortedRows false v l w).Perm
      (rowsOf false v l w) := List.perm_insertionSort rowLE _
  have hvals : (rowsOf false v l w).map (fun r => r.1) = v :=
    rowsOf_vals_false v l w hlen
  have hlabs : rowLabels (rowsOf false v l w) = l :=
    rowsOf_labels_false v l w hlen
  have hslen : (BestBinaryNumericSplit.sortedRows false v l w).length =
      v.length := by
    rw [hperm.length_eq,
      ← List.length_map (rowsOf false v l w) (fun r => r.1), hvals]
  have hsortedsorted : List.Sorted rowLE
      (BestBinaryNumericSplit.sortedRows false v l w) :=
    List.sorted_insertionSort rowLE _
  rcases hsr : BestBinaryNumericSplit.sortedRows false v l w with
    _ | ⟨s0, tail⟩
  · rw [hsr] at hslen
    simp at hslen
    omega
  · rcases tail with _ | ⟨s1, rest⟩
    · rw [hsr] at hslen
      simp at hslen
      omega
    · -- adjacency: s0.1 < s1.1
      rw [hsr] at hperm hsortedsorted
      have hle01 : rowLE s0 s1 :=
        (List.pairwise_cons.mp hsortedsorted).1 s1 (List.mem_cons_self _ _)
      have hmapnodup : ((s0 :: s1 :: rest).map (fun r => r.1)).Nodup := by
        have : ((s0 :: s1 :: rest).map (fun r => r.1)).Perm v := by
          rw [← hvals]
          exact hperm.map _
        exact this.nodup_iff.mpr (hvals ▸ hnodup)
      have hne01 : s0.1 ≠ s1.1 := by
        rw [List.map_cons, List.map_cons, List.nodup_cons] at hmapnodup
        exact fun h => hmapnodup.1 (h ▸ List.mem_cons_self _ _)
      have hlt01 : s0.1 < s1.1 := lt_of_le_of_ne hle01 hne01
      -- the head candidate
      have hmemc : (combinedGini false nc [s0] (s1 :: rest),
          (s0.1 + s1.1) / 2) ∈
          BestBinaryNumericSplit.candidates false nc 1 (s0 :: s1 :: rest) := by
        rw [BestBinaryNumericSplit.candidates,
          BestBinaryNumericSplit.candAux]
        refine List.mem_append_left _ ?_
        rw [if_pos ⟨by omega, by omega, hlt01⟩]
        simp
      -- its gain strictly beats the baseline
      have hlperm : l.Perm (rowLabels (s0 :: s1 :: rest)) := by
        rw [← hlabs]
        exact (hperm.map _).symm
      have hgt : GiniGain.Evaluate false l nc w0 <
          combinedGini false nc [s0] (s1 :: rest) := by
        have hmemS : ∀ r ∈ (s0 :: s1 :: rest), r.2.1 ∈ l := by
          intro r hr
          exact rowsOf_mem_label (hperm.mem_iff.1 hr)
        have hbase : GiniGain.Evaluate false l nc w0 =
            GiniGain.Evaluate false
              (s0.2.1 :: rowLabels (s1 :: rest)) nc w0 := by
          refine gini_false_perm ?_ nc w0 w0
          rw [show s0.2.1 :: rowLabels (s1 :: rest) =
            rowLabels (s0 :: s1 :: rest) from rfl]
          exact hlperm
        rw [hbase]
        have hcg : combinedGini false nc [s0] (s1 :: rest) =
            ((1 : ℚ) * GiniGain.Evaluate false [s0.2.1] nc
                (rowWeights [s0]) +
              ((rowLabels (s1 :: rest)).length : ℚ) *
                GiniGain.Evaluate false (rowLabels (s1 :: rest)) nc
                  (rowWeights (s1 :: rest))) /
              (1 + ((rowLabels (s1 :: rest)).length : ℚ)) := by
          rw [combinedGini]
          simp only [Bool.false_eq_true, if_false]
          rw [show rowLabels [s0] = [s0.2.1] from rfl]
          rw [show ((rowLabels (s1 :: rest)).length) =
            ((s1 :: rest).length) from by rw [rowLabels, List.length_map]]
          norm_num
        rw [hcg]
        refine gini_single_split_gt s0.2.1 nc (rowLabels (s1 :: rest))
          w0 (rowWeights [s0]) (rowWeights (s1 :: rest))
          (hmem _ (hmemS s0 (List.mem_cons_self _ _)))
          (by rw [rowLabels, List.map_cons]; exact List.cons_ne_nil _ _) ?_
        by_contra hall
        push_neg at hall
        obtain ⟨a, ha, b, hb, hab⟩ := himp
        have hallk : ∀ x ∈ rowLabels (s0 :: s1 :: rest), x = s0.2.1 := by
          intro x hx
          rcases List.mem_cons.1 hx with h1 | h1
          · exact h1
          · exact hall x h1
        have ha2 := hallk a (hlperm.mem_iff.1 ha)
        have hb2 := hallk b (hlperm.mem_iff.1 hb)
        exact hab (ha2.trans hb2.symm)
      have hmemc2 : (combinedGini false nc [s0] (s1 :: rest),
          (s0.1 + s1.1) / 2) ∈
          BestBinaryNumericSplit.candidates false nc 1
            (BestBinaryNumericSplit.sortedRows false v l w) := by
        rw [hsr]
        exact hmemc
      exact lt_of_lt_of_le hgt
        (SplitIfBetter_ge_candidate (by omega) hmemc2)

theorem selectAux_ne_none {u : Bool} {nc ml : ℕ} {rows : List BRow}
    {b : ℚ} : ∀ (ds : List ℕ),
    selectAux u nc ml rows b ds = none →
    ∀ d ∈ ds, ¬ b < (trialSplit u nc ml rows b d).1 := by
  intro ds
  induction ds with
  | nil => intro _ d hd; exact absurd hd (List.not_mem_nil d)
  | cons d0 ds' ih =>
    intro h d hd
    rw [selectAux] at h
    split at h
    · rename_i hrec
      split at h
      · exact absurd h (by simp)
      · rename_i hcond
        rcases List.mem_cons.1 hd with h1 | h1
        · subst h1; exact hcond
        · exact ih hrec d h1
    · exact absurd h (by split <;> simp)

theorem selectAux_some {u : Bool} {nc ml : ℕ} {rows : List BRow} {b : ℚ} :
    ∀ (ds : List ℕ) (d : ℕ) (g : ℚ) (out : List ℚ),
    selectAux u nc ml rows b ds = some (d, g, out) →
    b < g ∧ g = (trialSplit u nc ml rows b d).1 ∧
      out = (trialSplit u nc ml rows b d).2 ∧ d ∈ ds := by
  intro ds
  induction ds with
  | nil => intro d g out h; simp [selectAux] at h
  | cons d0 ds' ih =>
    intro d g out h
    rw [selectAux] at h
    split at h
    · rename_i hrec
      split at h
      · rename_i hcond
        have h' := Option.some.inj h
        have h1 : d0 = d := congrArg Prod.fst h'
        have h2 : (trialSplit u nc ml rows b d0).1 = g :=
          congrArg (fun z => z.2.1) h'
        have h3 : (trialSplit u nc ml rows b d0).2 = out :=
          congrArg (fun z => z.2.2) h'
        subst h1
        exact ⟨h2 ▸ hcond, h2.symm, h3.symm, List.mem_cons_self _ _⟩
      · exact absurd h (by simp)
    · rename_i bb hrec
      obtain ⟨b1, b2, b3⟩ := bb
      split at h
      · rename_i hcond
        have h' := Option.some.inj h
        have h1 : d0 = d := congrArg Prod.fst h'
        have h2 : (trialSplit u nc ml rows b d0).1 = g :=
          congrArg (fun z => z.2.1) h'
        have h3 : (trialSplit u nc ml rows b d0).2 = out :=
          congrArg (fun z => z.2.2) h'
        subst h1
        obtain ⟨hb1, _, _, _⟩ := ih b1 b2 b3 hrec
        exact ⟨h2 ▸ lt_of_lt_of_le hb1 hcond, h2.symm, h3.symm,
          List.mem_cons_self _ _⟩
      · have h' := Option.some.inj h
        have h1 : b1 = d := congrArg Prod.fst h'
        have h2 : b2 = g := congrArg (fun z => z.2.1) h'
        have h3 : b3 = out := congrArg (fun z => z.2.2) h'
        subst h1
        subst h2
        subst h3
        obtain ⟨hb1, hb2, hb3, hb4⟩ := ih b1 b2 b3 hrec
        exact ⟨hb1, hb2, hb3, List.mem_cons_of_mem _ hb4⟩

theorem length_filter_partition (th : ℚ) (d : ℕ) :
    ∀ rows : List BRow,
    (rows.filter (fun x => x.1.getD d 0 ≤ th)).length +
      (rows.filter (fun x => th < x.1.getD d 0)).length = rows.length := by
  intro rows
  induction rows with
  | nil => rfl
  | cons r rest ih =>
    by_cases hc : r.1.getD d 0 ≤ th
    · rw [List.filter_cons_of_pos (by simpa using hc),
        List.filter_cons_of_neg (by simpa using not_lt.mpr hc)]
      simp only [List.length_cons]
      omega
    · rw [List.filter_cons_of_neg (by simpa using hc),
        List.filter_cons_of_pos (by simpa using not_le.mp hc)]
      simp only [List.length_cons]
      omega

/-- The inductive heart of claim C7: for a nonempty partition with labels
inside `[0, numClasses)` and one dimension on which all points are pairwise
distinct, the build with `minLeafSize = 1` classifies every point of the
partition with the one-hot vector at its own label. -/
theorem buildFuel_perfect (nd nc : ℕ) :
    ∀ (fuel : ℕ) (rows : List BRow), rows.length ≤ fuel → rows ≠ [] →
    (∀ r ∈ rows, r.2.1 < nc) →
    (∃ d, d < nd ∧ (colVals d rows).Nodup) →
    ∀ r ∈ rows,
      DTree.classProbs (buildFuel false nd nc 1 fuel rows) r.1 =
        oneHot nc r.2.1 := by
  intro fuel
  induction fuel with
  | zero =>
    intro rows hf hne _ _ r _
    exact absurd (List.length_eq_zero.mp (Nat.le_zero.mp hf)) hne
  | succ f ih =>
    intro rows hf hne hlab hsep r hr
    obtain ⟨d, hd, hnodup⟩ := hsep
    rw [buildFuel]
    by_cases hlen2 : rows.length < 2 * 1
    · rw [if_pos hlen2]
      have h1 : rows.length = 1 := by
        have := List.length_pos.mpr hne
        omega
      obtain ⟨r0, hr0⟩ := List.length_eq_one.mp h1
      subst hr0
      have hrr : r = r0 := by simpa using hr
      subst hrr
      simp only [DTree.classProbs]
      refine leafProbs_pure nc (bLabels [r]) (bWeights [r]) r.2.1 ?_
        (hlab r hr) (by simp [bLabels])
      intro x hx
      simp [bLabels] at hx
      exact hx
    · rw [if_neg hlen2]
      have hN2 : 2 ≤ rows.length := by omega
      have hbllen : (colVals d rows).length = (bLabels rows).length := by
        simp [colVals, bLabels]
      have hcvlen : (colVals d rows).length = rows.length := by
        simp [colVals]
      have hlabmem : ∀ x ∈ bLabels rows, x < nc := by
        intro x hx
        obtain ⟨rr, hrr, hrx⟩ := List.mem_map.1 hx
        exact hrx ▸ hlab rr hrr
      have hblne : bLabels rows ≠ [] := by
        intro hbe
        exact hne (List.map_eq_nil.mp hbe)
      rcases hsel : selectDim false nc 1 rows
          (GiniGain.Evaluate false (bLabels rows) nc (bWeights rows)) nd
          with _ | ⟨d0, g0, out0⟩
      · -- no dimension improved on the baseline: the partition is pure
        simp only [hsel, DTree.classProbs]
        rw [selectDim] at hsel
        have hnone := selectAux_ne_none (List.range nd) hsel d
          (List.mem_range.mpr hd)
        have hpure : ∃ k, ∀ x ∈ bLabels rows, x = k := by
          by_contra hcon
          push_neg at hcon
          rcases hbl : bLabels rows with _ | ⟨k0, ls⟩
          · exact hblne hbl
          · obtain ⟨x, hx, hxk⟩ := hcon k0
            have himp : ∃ a ∈ bLabels rows, ∃ b2 ∈ bLabels rows, a ≠ b2 :=
              ⟨x, hx, k0, by rw [hbl]; exact List.mem_cons_self _ _, hxk⟩
            have himpr := numericSplit_improves (colVals d rows)
              (bLabels rows) nc (bWeights rows) (bWeights rows) hbllen
              hnodup (by omega) hlabmem himp
            exact hnone (by rw [trialSplit]; exact himpr)
        obtain ⟨k, hk⟩ := hpure
        have hrk : r.2.1 = k := hk r.2.1 (List.mem_map_of_mem _ hr)
        have hkin : k < nc := hrk ▸ hlab r hr
        rw [leafProbs_pure nc (bLabels rows) (bWeights rows) k hk hkin hblne,
          hrk]
      · -- a dimension d0 won: recurse on both sides of its threshold
        have hsel2 := hsel
        rw [selectDim] at hsel2
        obtain ⟨hblt, hgeq, houteq, _⟩ :=
          selectAux_some (List.range nd) d0 g0 out0 hsel2
        have hgt2 : GiniGain.Evaluate false (bLabels rows) nc
            (bWeights rows) < (BestBinaryNumericSplit.SplitIfBetter false
              (GiniGain.Evaluate false (bLabels rows) nc (bWeights rows))
              (colVals d0 rows) (bLabels rows) nc (bWeights rows) 1).1 := by
          have := hgeq ▸ hblt
          rw [trialSplit] at this
          exact this
        obtain ⟨th, hshape, ⟨a, hav, hat⟩, ⟨bb, hbv, hbt⟩⟩ :=
          SplitIfBetter_success_shape hgt2
        have hout : out0 = [th] := by
          rw [houteq, trialSplit]
          exact congrArg Prod.snd hshape
        subst hout
        simp only [hsel, DTree.classProbs]
        obtain ⟨ra, hra, hrav⟩ := List.mem_map.1 hav
        obtain ⟨rb, hrb, hrbv⟩ := List.mem_map.1 hbv
        have hraL : ra ∈ rows.filter (fun x => x.1.getD d0 0 ≤ th) :=
          List.mem_filter.2 ⟨hra, by
            simp only [decide_eq_true_eq]
            rw [hrav]
            exact le_of_lt hat⟩
        have hrbR : rb ∈ rows.filter (fun x => th < x.1.getD d0 0) :=
          List.mem_filter.2 ⟨hrb, by
            simp only [decide_eq_true_eq]
            rw [hrbv]
            exact hbt⟩
        have hpart := length_filter_partition th d0 rows
        have hL1 : 1 ≤ (rows.filter (fun x => x.1.getD d0 0 ≤ th)).length :=
          List.length_pos.mpr (List.ne_nil_of_mem hraL)
        have hR1 : 1 ≤ (rows.filter (fun x => th < x.1.getD d0 0)).length :=
          List.length_pos.mpr (List.ne_nil_of_mem hrbR)
        have hguard : (rows.filter (fun x => x.1.getD d0 0 ≤ th)).length <
            rows.length ∧
            (rows.filter (fun x => th < x.1.getD d0 0)).length <
            rows.length := ⟨by omega, by omega⟩
        rw [if_pos hguard]
        have hsubL : ∀ p : BRow → Bool,
            (colVals d (rows.filter p)).Nodup := by
          intro p
          refine List.Nodup.sublist ?_ hnodup
          exact (List.filter_sublist rows).map _
        by_cases hside : r.1.getD d0 0 ≤ th
        · rw [DTree.classProbs, if_pos hside]
          refine ih (rows.filter (fun x => x.1.getD d0 0 ≤ th))
            (by omega) (List.ne_nil_of_mem hraL)
            (fun rr hrr => hlab rr (List.mem_of_mem_filter hrr))
            ⟨d, hd, hsubL _⟩ r
            (List.mem_filter.2 ⟨hr, by
              simp only [decide_eq_true_eq]
              exact hside⟩)
        · rw [DTree.classProbs, if_neg hside]
          refine ih (rows.filter (fun x => th < x.1.getD d0 0))
            (by omega) (List.ne_nil_of_mem hrbR)
            (fun rr hrr => hlab rr (List.mem_of_mem_filter hrr))
            ⟨d, hd, hsubL _⟩ r
            (List.mem_filter.2 ⟨hr, by
              simp only [decide_eq_true_eq]
              exact not_le.mp hside⟩)

theorem leafProbs_ones (nc : ℕ) (l : List ℕ) (w : List ℚ)
    (hlen : w.length = l.length) (hones : ∀ x ∈ w, x = 1) :
    leafProbs true nc l w = leafProbs false nc l w := by
  have ht := totW_ones l w hlen hones
  rw [leafProbs, leafProbs]
  simp only [if_pos rfl, Bool.true_eq_false, Bool.false_eq_true, if_false,
    if_true, ht]
  by_cases hz : ((l.length : ℚ)) = 0
  · rw [if_pos hz, if_pos hz]
  · rw [if_neg hz, if_neg hz]
    refine List.map_congr_left (fun c _ => ?_)
    rw [sumW_ones l w hlen hones c]

theorem bWeights_ones {rows : List BRow} (h : ∀ r ∈ rows, r.2.2 = 1) :
    ∀ x ∈ bWeights rows, x = 1 := by
  intro x hx
  obtain ⟨r, hr, hrx⟩ := List.mem_map.1 hx
  exact hrx ▸ h r hr

theorem numericSplit_ones_of_mem (bg : ℚ) (v : List ℚ) (l : List ℕ)
    (nc ml : ℕ) (w : List ℚ) (hwl : w.length = l.length)
    (hvl : v.length = l.length) (hones : ∀ x ∈ w, x = 1) :
    BestBinaryNumericSplit.SplitIfBetter true bg v l nc w ml =
      BestBinaryNumericSplit.SplitIfBetter false bg v l nc w ml := by
  have hw : w = List.replicate l.length 1 := by
    rw [← hwl]
    exact List.eq_replicate_of_mem hones
  rw [hw]
  exact numericSplit_ones bg v l nc ml hvl

theorem trialSplit_ones {nc ml : ℕ} {rows : List BRow} {b : ℚ}
    (hrows : ∀ r ∈ rows, r.2.2 = 1) (d : ℕ) :
    trialSplit true nc ml rows b d = trialSplit false nc ml rows b d := by
  rw [trialSplit, trialSplit]
  exact numericSplit_ones_of_mem b (colVals d rows) (bLabels rows) nc ml
    (bWeights rows) (by simp [bWeights, bLabels]) (by simp [colVals, bLabels])
    (bWeights_ones hrows)

theorem selectAux_ones {nc ml : ℕ} {rows : List BRow} {b : ℚ}
    (hrows : ∀ r ∈ rows, r.2.2 = 1) :
    ∀ ds, selectAux true nc ml rows b ds = selectAux false nc ml rows b ds := by
  intro ds
  induction ds with
  | nil => rfl
  | cons d ds' ih =>
    rw [selectAux, selectAux]
    simp only [ih, trialSplit_ones hrows d]

/-- With all-unit weights the weighted build produces exactly the tree of
the unweighted build. -/
theorem buildFuel_ones (nd nc ml : ℕ) :
    ∀ (fuel : ℕ) (rows : List BRow), (∀ r ∈ rows, r.2.2 = 1) →
    buildFuel true nd nc ml fuel rows = buildFuel false nd nc ml fuel rows := by
  intro fuel
  induction fuel with
  | zero =>
    intro rows hrows
    rw [buildFuel, buildFuel, leafProbs_ones nc (bLabels rows)
      (bWeights rows) (by simp [bWeights, bLabels]) (bWeights_ones hrows)]
  | succ f ih =>
    intro rows hrows
    have hprobs : leafProbs true nc (bLabels rows) (bWeights rows) =
        leafProbs false nc (bLabels rows) (bWeights rows) :=
      leafProbs_ones nc (bLabels rows) (bWeights rows)
        (by simp [bWeights, bLabels]) (bWeights_ones hrows)
    have hbase : GiniGain.Evaluate true (bLabels rows) nc (bWeights rows) =
        GiniGain.Evaluate false (bLabels rows) nc (bWeights rows) :=
      gini_evaluate_ones (bLabels rows) nc (bWeights rows)
        (by simp [bWeights, bLabels]) (bWeights_ones hrows)
    have hseld : selectDim true nc ml rows
        (GiniGain.Evaluate true (bLabels rows) nc (bWeights rows)) nd =
        selectDim false nc ml rows
        (GiniGain.Evaluate false (bLabels rows) nc (bWeights rows)) nd := by
      rw [hbase, selectDim, selectDim]
      exact selectAux_ones hrows _
    rw [buildFuel, buildFuel]
    by_cases hlen : rows.length < 2 * ml
    · rw [if_pos hlen, if_pos hlen, hprobs]
    · rw [if_neg hlen, if_neg hlen]
      rcases hsel : selectDim false nc ml rows
          (GiniGain.Evaluate false (bLabels rows) nc (bWeights rows)) nd
          with _ | ⟨d, g0, out⟩
      · simp only [hseld, hsel, hprobs]
      · rcases out with _ | ⟨t, out2⟩
        · simp only [hseld, hsel, hprobs]
        · rcases out2 with _ | ⟨t2, out3⟩
          · simp only [hseld, hsel, hprobs]
            by_cases hguard :
                (rows.filter (fun x => x.1.getD d 0 ≤ t)).length <
                    rows.length ∧
                  (rows.filter (fun x => t < x.1.getD d 0)).length <
                    rows.length
            · rw [if_pos hguard, if_pos hguard,
                ih _ (fun r hr => hrows r (List.mem_of_mem_filter hr)),
                ih _ (fun r hr => hrows r (List.mem_of_mem_filter hr))]
            · rw [if_neg hguard, if_neg hguard]
          · simp only [hseld, hsel, hprobs]

/-- C7: on a dataset whose classes are exactly separable — here, all points
pairwise distinct in some dimension — a tree built with `minLeafSize = 1`
classifies every training point to its true label and returns, for every
training point, a probability vector of length `numClasses` that is one-hot
at the true class (for the unweighted build and, with all-unit weights as
in `PerfectTrainingSetWithWeight`, for the weighted build alike). -/
theorem claim7_perfect_training_set (numDims numClasses : ℕ)
    (rows : List BRow) (hne : rows ≠ [])
    (hlab : ∀ r ∈ rows, r.2.1 < numClasses)
    (hsep : ∃ d, d < numDims ∧ (colVals d rows).Nodup) :
    (∀ r ∈ rows,
      DTree.classProbs (buildTree false numDims numClasses 1 rows) r.1 =
          oneHot numClasses r.2.1 ∧
      (DTree.classProbs (buildTree false numDims numClasses 1 rows)
          r.1).length = numClasses ∧
      predictLabel (DTree.classProbs
        (buildTree false numDims numClasses 1 rows) r.1) = r.2.1) ∧
    ((∀ r ∈ rows, r.2.2 = 1) → ∀ r ∈ rows,
      DTree.classProbs (buildTree true numDims numClasses 1 rows) r.1 =
          oneHot numClasses r.2.1 ∧
      predictLabel (DTree.classProbs
        (buildTree true numDims numClasses 1 rows) r.1) = r.2.1) := by
  have hmain : ∀ r ∈ rows,
      DTree.classProbs (buildTree false numDims numClasses 1 rows) r.1 =
          oneHot numClasses r.2.1 ∧
      (DTree.classProbs (buildTree false numDims numClasses 1 rows)
          r.1).length = numClasses ∧
      predictLabel (DTree.classProbs
        (buildTree false numDims numClasses 1 rows) r.1) = r.2.1 := by
    intro r hr
    have h := buildFuel_perfect numDims numClasses rows.length rows
      (le_refl _) hne hlab hsep r hr
    rw [buildTree]
    refine ⟨h, ?_, ?_⟩
    · rw [h, oneHot_length]
    · rw [h]
      exact predictLabel_oneHot numClasses r.2.1 (hlab r hr)
  refine ⟨hmain, ?_⟩
  intro hw r hr
  have htree : buildTree true numDims numClasses 1 rows =
      buildTree false numDims numClasses 1 rows := by
    rw [buildTree, buildTree]
    exact buildFuel_ones numDims numClasses 1 rows.length rows hw
  rw [htree]
  exact ⟨(hmain r hr).1, (hmain r hr).2.2⟩

/-- Witness for C7: a separable 2-point, 2-class dataset with one numeric
dimension, checked at the first training point. -/
theorem claim7_perfect_training_set_witness :
    (([([0], 0, 1), ([1], 1, 1)] : List BRow) ≠ [] ∧
      (∀ r ∈ ([([0], 0, 1), ([1], 1, 1)] : List BRow), r.2.1 < 2) ∧
      (∃ d, d < 1 ∧ (colVals d [([0], 0, 1), ([1], 1, 1)]).Nodup) ∧
      (([0], 0, 1) : BRow) ∈ ([([0], 0, 1), ([1], 1, 1)] : List BRow)) ∧
    (∀ r ∈ ([([0], 0, 1), ([1], 1, 1)] : List BRow), r.2.2 = 1) ∧
    (DTree.classProbs (buildTree false 1 2 1 [([0], 0, 1), ([1], 1, 1)])
        [0] = oneHot 2 0 ∧
      (DTree.classProbs (buildTree false 1 2 1 [([0], 0, 1), ([1], 1, 1)])
        [0]).length = 2 ∧
      predictLabel (DTree.classProbs
        (buildTree false 1 2 1 [([0], 0, 1), ([1], 1, 1)]) [0]) = 0) ∧
    (DTree.classProbs (buildTree true 1 2 1 [([0], 0, 1), ([1], 1, 1)])
        [0] = oneHot 2 0 ∧
      predictLabel (DTree.classProbs
        (buildTree true 1 2 1 [([0], 0, 1), ([1], 1, 1)]) [0]) = 0) := by
  have hne : ([([0], 0, 1), ([1], 1, 1)] : List BRow) ≠ [] := by simp
  have hlab : ∀ r ∈ ([([0], 0, 1), ([1], 1, 1)] : List BRow), r.2.1 < 2 := by
    intro r hr
    rcases List.mem_cons.1 hr with h | h
    · rw [h]; norm_num
    · simp at h
      rw [h]; norm_num
  have hsep : ∃ d, d < 1 ∧
      (colVals d [([0], 0, 1), ([1], 1, 1)]).Nodup := by
    refine ⟨0, by norm_num, ?_⟩
    have : colVals 0 [(([0] : List ℚ), 0, (1 : ℚ)), ([1], 1, 1)] =
        [0, 1] := by
      norm_num [colVals, List.getD]
    rw [this]
    norm_num
  have hmem : (([0], 0, 1) : BRow) ∈
      ([([0], 0, 1), ([1], 1, 1)] : List BRow) := List.mem_cons_self _ _
  have hw : ∀ r ∈ ([([0], 0, 1), ([1], 1, 1)] : List BRow), r.2.2 = 1 := by
    intro r hr
    simp at hr
    rcases hr with h | h <;> subst h <;> norm_num
  have h := claim7_perfect_training_set 1 2 [([0], 0, 1), ([1], 1, 1)]
    hne hlab hsep
  exact ⟨⟨hne, hlab, hsep, hmem⟩, hw, h.1 (([0], 0, 1) : BRow) hmem,
    h.2 hw (([0], 0, 1) : BRow) hmem⟩

end MlpackDT
